import Mathlib

/-!
Verification of the two-stage matching engine of `merge_feed_to_index.py`
(Old-India-Photos). The Python source is shallowly embedded: pure text
helpers become Lean functions on `String`/`List Char`, the per-record merge
loop becomes an explicit step function, and scores are exact rationals.
The character-level similarity `difflib.SequenceMatcher(...).ratio()` is a
Python standard-library routine external to the repository; it is modelled
as an explicit function parameter `fz` wherever the code calls it.
Whitespace classes are modelled over ASCII (the data this pipeline handles).
-/

namespace OldIndiaPhotos

/-- Python whitespace class used by `\s` in the regexes and by `str.split()` /
`str.strip()`: space, tab, newline, carriage return, vertical tab, form feed
(ASCII fragment of the Unicode class). -/
def pyIsSpace (c : Char) : Bool :=
  c = ' ' || c = '\t' || c = '\n' || c = '\r' || c = '\x0b' || c = '\x0c'

/-- ASCII lower-casing, the fragment of Python `str.lower()` relevant here. -/
def lowerChar (c : Char) : Char :=
  if 65 ≤ c.toNat ∧ c.toNat ≤ 90 then Char.ofNat (c.toNat + 32) else c

/-- Membership in `[a-z]`. -/
def isAsciiLower (c : Char) : Bool := 97 ≤ c.toNat && c.toNat ≤ 122

/-- Membership in `[0-9]`. -/
def isAsciiDigit (c : Char) : Bool := 48 ≤ c.toNat && c.toNat ≤ 57

/-- Membership in `[a-z0-9]`. -/
def isAlnumLower (c : Char) : Bool := isAsciiLower c || isAsciiDigit c

/-- One character of `re.sub(r"[^a-z0-9\s]", " ", s)`: characters outside
`[a-z0-9\s]` become a space, the rest are kept. -/
def stripToSpace (c : Char) : Char :=
  if isAlnumLower c || pyIsSpace c then c else ' '

/-- Worker for `pyWords`; `acc` carries the word being read, in order. -/
def pyWordsAux : List Char → List Char → List (List Char)
  | [], acc => if acc = [] then [] else [acc]
  | c :: cs, acc =>
    if pyIsSpace c then
      (if acc = [] then pyWordsAux cs [] else acc :: pyWordsAux cs [])
    else pyWordsAux cs (acc ++ [c])

/-- Python `str.split()` with no separator: split on runs of whitespace,
dropping empty pieces. -/
def pyWords (l : List Char) : List (List Char) := pyWordsAux l []

/-- Python `" ".join(words)` at the `List Char` level. -/
def joinWords : List (List Char) → List Char
  | [] => []
  | [t] => t
  | t :: t2 :: ts => t ++ ' ' :: joinWords (t2 :: ts)

/-- `normalize` from the source: `re.sub(r"\s+", " ", (s or "").strip())` —
collapse interior whitespace runs to one space and trim the ends.
Splitting into words and re-joining with single spaces computes exactly that. -/
def normalize (s : String) : String := String.mk (joinWords (pyWords s.data))

/-- Python `str.lower()` (ASCII fragment). -/
def lowerStr (s : String) : String := String.mk (s.data.map lowerChar)

/-- The fixed `SYNONYMS` dict from the source, as an association table (its
keys are pairwise distinct, so dict and association-list lookup agree). -/
def SYNONYMS_TABLE : List (String × String) :=
  [("bombay", "mumbai"), ("calcutta", "kolkata"), ("benaras", "varanasi"),
   ("benares", "varanasi"), ("poona", "pune"), ("madras", "chennai"),
   ("baroda", "vadodara"), ("cawnpore", "kanpur"),
   ("trivandrum", "thiruvananthapuram"), ("travancore", "kerala"),
   ("mysore", "mysuru"), ("banaras", "varanasi"),
   ("hindu", "indian"), ("hindustan", "india")]

/-- Python `SYNONYMS.get(t)`. -/
def SYNONYMS (t : String) : Option String := SYNONYMS_TABLE.lookup t

/-- Python `SYNONYMS.get(t, t)`. -/
def synFold (t : String) : String := (SYNONYMS t).getD t

/-- `apply_synonyms_tokenwise` from the source: lower-case, replace characters
outside `[a-z0-9\s]` by spaces, split into tokens, substitute each token
through the synonym table, re-join with single spaces. -/
def apply_synonyms_tokenwise (text : String) : String :=
  String.mk (joinWords
    ((pyWords ((text.data.map lowerChar).map stripToSpace)).map
      (fun t => (synFold (String.mk t)).data)))

/-- The `re.sub(r"^\d{4}-\d{2}-\d{2}\s+", "", s)` step of `slugify`: drop a
leading `YYYY-MM-DD` date followed by at least one whitespace character
(the greedy `\s+` consumes the whole whitespace run). -/
def dropLeadingDate (l : List Char) : List Char :=
  match l with
  | d1 :: d2 :: d3 :: d4 :: '-' :: m1 :: m2 :: '-' :: a1 :: a2 :: c :: rest =>
    if isAsciiDigit d1 && isAsciiDigit d2 && isAsciiDigit d3 && isAsciiDigit d4 &&
       isAsciiDigit m1 && isAsciiDigit m2 && isAsciiDigit a1 && isAsciiDigit a2 &&
       pyIsSpace c then
      rest.dropWhile pyIsSpace
    else l
  | _ => l

/-- `slugify` from the source: lower-case the normalized text, drop a leading
date, replace runs outside `[a-z0-9\s]` by spaces, collapse whitespace, strip,
then apply synonym folding.  (The source replaces each offending run by one
space; since whitespace is collapsed immediately afterwards, the per-character
replacement used here yields the same string.) -/
def slugify (text : String) : String :=
  let s1 := lowerStr (normalize text)
  let s2 := String.mk (dropLeadingDate s1.data)
  let s3 := String.mk (s2.data.map stripToSpace)
  let s4 := String.mk (joinWords (pyWords s3.data))
  apply_synonyms_tokenwise s4

/-- `tokens` from the source: lower-case, strip non-alphanumerics to spaces,
split on whitespace, and drop tokens of length at most 2. -/
def tokens (s : String) : List String :=
  ((pyWords ((s.data.map lowerChar).map stripToSpace)).filter
    (fun t => 2 < t.length)).map String.mk

/-- `jaccard` from the source: token-set Jaccard similarity, 0 when either
token set is empty. -/
def jaccard (a b : String) : ℚ :=
  let A := (tokens a).toFinset
  let B := (tokens b).toFinset
  if A = ∅ ∨ B = ∅ then 0
  else ((A ∩ B).card : ℚ) / ((A ∪ B).card : ℚ)

/-- `fuzzy` from the source: `SequenceMatcher(None, normalize(a).lower(),
normalize(b).lower()).ratio()`.  The `ratio` routine itself belongs to the
Python standard library, not to this repository, so it enters as the explicit
parameter `fz`. -/
def fuzzy (fz : String → String → ℚ) (a b : String) : ℚ :=
  fz (lowerStr (normalize a)) (lowerStr (normalize b))

example : normalize "  a   b\t c " = "a b c" := by decide
example : apply_synonyms_tokenwise "Old BOMBAY, Poona!" = "old mumbai pune" := by decide
example : slugify "1911-03-01 Benaras Ghats" = "varanasi ghats" := by decide
example : tokens "a of the Ghats 1911" = ["the", "ghats", "1911"] := by decide
example : jaccard "benaras ghats" "ghats view" = 1 / 3 := by
  have h1 : ((tokens "benaras ghats").toFinset ∩ (tokens "ghats view").toFinset).card = 1 := by
    decide
  have h2 : ((tokens "benaras ghats").toFinset ∪ (tokens "ghats view").toFinset).card = 3 := by
    decide
  have h3 : ¬((tokens "benaras ghats").toFinset = ∅ ∨ (tokens "ghats view").toFinset = ∅) := by
    decide
  simp only [jaccard, h1, h2, if_neg h3]
  norm_num

/-- Word characters for the `\b` boundaries of the part-number regexes:
`[a-zA-Z0-9_]`. -/
def isWordChar (c : Char) : Bool :=
  isAlnumLower c || (65 ≤ c.toNat && c.toNat ≤ 90) || c = '_'

/-- A `\b` boundary holds before the current position given the previous
character (`none` at the start of the string). -/
def wordBoundaryBefore : Option Char → Bool
  | none => true
  | some c => !isWordChar c

/-- The `ROMAN_MAP` table from the source. -/
def ROMAN_MAP (s : String) : Option Int :=
  if s = "i" then some 1
  else if s = "ii" then some 2
  else if s = "iii" then some 3
  else if s = "iv" then some 4
  else if s = "v" then some 5
  else if s = "vi" then some 6
  else if s = "vii" then some 7
  else if s = "viii" then some 8
  else if s = "ix" then some 9
  else if s = "x" then some 10
  else none

/-- Numeric value of a list of decimal digits. -/
def digitsVal (l : List Char) : Int :=
  l.foldl (fun n c => 10 * n + ((c.toNat : Int) - 48)) 0

/-- Run parser for the Arabic variant `(\d{1,2})\b`: the maximal word-character
run after the separator must be 1 or 2 decimal digits. -/
def arabicRun (run : List Char) : Option Int :=
  if run ≠ [] ∧ run.length ≤ 2 ∧ run.all isAsciiDigit then some (digitsVal run)
  else none

/-- Run parser for the Roman variant `(i|ii|iii|iv|v|vi|vii|viii|ix|x)\b`:
because of the trailing boundary, the alternation matches exactly when the
maximal word-character run is one of the ten table keys. -/
def romanRun (run : List Char) : Option Int := ROMAN_MAP (String.mk run)

/-- After the literal `part` (with its trailing `\b`), consume
`\s*[-:]?\s*` and hand the maximal word-character run to the run parser. -/
def parseAfterPart (parseRun : List Char → Option Int) (l : List Char) :
    Option Int :=
  match l with
  | [] => none
  | c :: _ =>
    if isWordChar c then none
    else
      let l1 := l.dropWhile pyIsSpace
      let l2 := match l1 with
        | d :: rest => if d = '-' ∨ d = ':' then rest else l1
        | [] => l1
      let l3 := l2.dropWhile pyIsSpace
      parseRun (l3.takeWhile isWordChar)

/-- Scan for the leftmost occurrence of `\bpart\b` whose continuation the run
parser accepts, tracking the previous character for the leading boundary. -/
def scanForPart (parseRun : List Char → Option Int) :
    Option Char → List Char → Option Int
  | _, [] => none
  | prev, c :: cs =>
    let here : Option Int :=
      if wordBoundaryBefore prev ∧ c = 'p' then
        match cs with
        | 'a' :: 'r' :: 't' :: rest => parseAfterPart parseRun rest
        | _ => none
      else none
    match here with
    | some n => some n
    | none => scanForPart parseRun (some c) cs

/-- `extract_part_number` from the source: on the lower-cased text, first try
`\bpart\b\s*[-:]?\s*(\d{1,2})\b`, then the Roman-numeral variant. -/
def extract_part_number (text : String) : Option Int :=
  let s := (lowerStr text).data
  match scanForPart arabicRun none s with
  | some n => some n
  | none => scanForPart romanRun none s

/-- Try to match `(\d{4})/(\d{2})/` at the current position (just after a
slash). -/
def ymAt : List Char → Option (String × String)
  | y1 :: y2 :: y3 :: y4 :: '/' :: m1 :: m2 :: '/' :: _ =>
    if [y1, y2, y3, y4, m1, m2].all isAsciiDigit then
      some (String.mk [y1, y2, y3, y4], String.mk [m1, m2])
    else none
  | _ => none

/-- Leftmost occurrence of `/(\d{4})/(\d{2})/`. -/
def ymScan : List Char → Option (String × String)
  | [] => none
  | c :: rest =>
    match (if c = '/' then ymAt rest else none) with
    | some r => some r
    | none => ymScan rest

/-- `extract_year_month_from_post_url` from the source: first
`/(\d{4})/(\d{2})/` pattern of the URL, as `(year, month)` strings. -/
def extract_year_month_from_post_url (u : String) :
    Option String × Option String :=
  match ymScan u.data with
  | some (y, m) => (some y, some m)
  | none => (none, none)

/-- `year_month_from_index_date` from the source: expects a `YYYY-MM-DD`
prefix and returns the year and month substrings. -/
def year_month_from_index_date : Option String → Option String × Option String
  | none => (none, none)
  | some d =>
    match d.data with
    | y1 :: y2 :: y3 :: y4 :: '-' :: m1 :: m2 :: '-' :: a1 :: a2 :: _ =>
      if [y1, y2, y3, y4, m1, m2, a1, a2].all isAsciiDigit then
        (some (String.mk [y1, y2, y3, y4]), some (String.mk [m1, m2]))
      else (none, none)
    | _ => (none, none)

/-- Full match of `^\d{4}$` (where `$` also accepts one final newline, as in
Python). -/
def fullMatch4 : List Char → Bool
  | [a, b, c, d] => [a, b, c, d].all isAsciiDigit
  | [a, b, c, d, '\n'] => [a, b, c, d].all isAsciiDigit
  | _ => false

/-- `decade_tag` from the source: a 4-digit year string maps to its decade
tag, e.g. `1911` to `1910s`. -/
def decade_tag : Option String → Option String
  | none => none
  | some year =>
    if fullMatch4 year.data then
      some (String.mk (year.data.take 3 ++ ['0', 's']))
    else none

/-- The `ALLOWED_HOSTS` set from the source. -/
def ALLOWED_HOSTS : List String :=
  ["bp.blogspot.com", "1.bp.blogspot.com", "2.bp.blogspot.com",
   "3.bp.blogspot.com", "4.bp.blogspot.com",
   "blogger.googleusercontent.com",
   "lh3.googleusercontent.com", "lh4.googleusercontent.com",
   "lh5.googleusercontent.com", "lh6.googleusercontent.com",
   "live.staticflickr.com"]

/-- Characters that may appear in a URL scheme after the initial letter. -/
def isSchemeChar (c : Char) : Bool :=
  isAlnumLower c || (65 ≤ c.toNat && c.toNat ≤ 90) || c = '+' || c = '-' || c = '.'

/-- Model of `urllib.parse.urlparse` scheme removal: strip a leading
`scheme:` when the text before the first `:` is a well-formed scheme. -/
def schemeSplit (l : List Char) : List Char :=
  let pre := l.takeWhile (fun c => c ≠ ':' ∧ c ≠ '/' ∧ c ≠ '?' ∧ c ≠ '#')
  match l.drop pre.length with
  | ':' :: rest =>
    match pre with
    | c :: cs =>
      if (isAsciiLower c || (65 ≤ c.toNat && c.toNat ≤ 90)) && cs.all isSchemeChar
      then rest else l
    | [] => l
  | _ => l

/-- Model of `urlparse(u).netloc`: the authority component after `//`. -/
def urlNetloc (u : String) : String :=
  match schemeSplit u.data with
  | '/' :: '/' :: r =>
    String.mk (r.takeWhile (fun c => c ≠ '/' ∧ c ≠ '?' ∧ c ≠ '#'))
  | _ => ""

/-- Model of `urlparse(u).path`. -/
def urlPath (u : String) : String :=
  let r := schemeSplit u.data
  let r2 := match r with
    | '/' :: '/' :: s => s.dropWhile (fun c => c ≠ '/' ∧ c ≠ '?' ∧ c ≠ '#')
    | _ => r
  String.mk (r2.takeWhile (fun c => c ≠ '?' ∧ c ≠ '#'))

/-- Boundary after an image extension in `IMG_EXT_RE`: `(?:\?|$)`. -/
def extBoundary : List Char → Bool
  | [] => true
  | '?' :: _ => true
  | _ => false

/-- Does one of the five image extensions match here (just after a dot)? -/
def imgExtAt (l : List Char) : Bool :=
  ["jpg", "jpeg", "png", "webp", "gif"].any (fun e =>
    e.data.isPrefixOf l && extBoundary (l.drop e.data.length))

/-- Scan for `\.(jpg|jpeg|png|webp|gif)(?:\?|$)` anywhere in the text. -/
def imgExtScan : List Char → Bool
  | [] => false
  | '.' :: rest => imgExtAt rest || imgExtScan rest
  | _ :: rest => imgExtScan rest

/-- `IMG_EXT_RE.search` from the source (the regex is case-insensitive, hence
the lower-casing). -/
def imgExtSearch (u : String) : Bool := imgExtScan (lowerStr u).data

/-- `host_ok` from the source: the image URL must sit on an allowed host or
carry a known image extension. -/
def host_ok (u : String) : Bool :=
  ALLOWED_HOSTS.contains (urlNetloc u) || imgExtSearch u

/-- `prefer_original` from the source: boosts for original-size markers. -/
def prefer_original (u : String) : ℚ :=
  (if "/s0/".data <:+: u.data then (0.2 : ℚ) else 0) +
  (if "imgmax=0".data <:+: u.data then (0.2 : ℚ) else 0)

/-- If the (lower-cased) name ends with a dot and one of the five image
extensions, return the stem before the dot. -/
def stripImgExt (l : List Char) : Option (List Char) :=
  match ["jpg", "jpeg", "png", "webp", "gif"].find?
      (fun e => ('.' :: e.data).isSuffixOf l) with
  | some e => some (l.take (l.length - (e.length + 1)))
  | none => none

/-- `number_from_orig_filename` from the source: the 1–3 digits immediately
before the image extension at the end of the lower-cased name (the leftmost
match of `(\d{1,3})\.(jpg|jpeg|png|webp|gif)$` captures the last at most three
digits of the digit run ending at the dot). -/
def number_from_orig_filename (s : Option String) : Option Int :=
  let l := (lowerStr (s.getD "")).data
  match stripImgExt l with
  | none => none
  | some stem =>
    let run := (stem.reverse.takeWhile isAsciiDigit).reverse
    if run = [] then none
    else some (digitsVal (run.drop (run.length - 3)))

/-- Model of `pathlib.Path(p).name`: the last non-empty, non-dot component. -/
def pathBasename (p : String) : String :=
  ((p.data.foldr
      (fun c parts =>
        match parts with
        | [] => if c = '/' then [[]] else [[c]]
        | w :: ws => if c = '/' then [] :: w :: ws else (c :: w) :: ws)
      []).filter (fun w => w ≠ [] ∧ w ≠ ['.'])).getLastD [] |>.asString

/-- `filename_tokens_from_path` from the source: tokenize the basename after
stripping the image extension (case-insensitively; harmless to lower-case
first since `tokens` lower-cases anyway). -/
def filename_tokens_from_path (p : String) : List String :=
  let base := (lowerStr (pathBasename p)).data
  tokens (String.mk ((stripImgExt base).getD base))

example : extract_part_number "The Fort (Part III)" = some 3 := by decide
example : extract_part_number "Part - 12 of the set" = some 12 := by decide
example : extract_part_number "part3" = none := by decide
example : extract_part_number "apart 3" = none := by decide
example : extract_part_number "part 0" = some 0 := by decide
example : extract_year_month_from_post_url
    "https://x.blogspot.com/2011/03/post.html" = (some "2011", some "03") := by decide
example : year_month_from_index_date (some "1911-03-01") =
    (some "1911", some "03") := by decide
example : decade_tag (some "1911") = some "1910s" := by decide
example : urlNetloc "https://live.staticflickr.com/a/b.jpg?q=1" =
    "live.staticflickr.com" := by decide
example : urlPath "https://h.example.com/a/b.jpg?q=1" = "/a/b.jpg" := by decide
example : host_ok "https://live.staticflickr.com/a/b" = true := by decide
example : host_ok "https://other.example.com/a/b.JPG" = true := by decide
example : host_ok "https://other.example.com/a/b.html" = false := by decide
example : number_from_orig_filename (some "photo_1234.JPG") = some 234 := by decide
example : filename_tokens_from_path "folder/Benaras_Ghats_07.jpg" =
    ["benaras", "ghats"] := by decide

/-- A local index row (`LocalRecord`): the fields of the index the merge
reads.  Absent JSON keys are modelled exactly as the `.get` defaults used by
the source (`""`, `[]`, or `None`). -/
structure LocalRecord where
  id : Option String := none
  folder : String := ""
  title : String := ""
  date : Option String := none
  orig_filename : Option String := none
  file : String := ""
  tags : List String := []
deriving DecidableEq

/-- One scraped image row (`RemoteImageRecord`) of the meta feed. -/
structure MetaRow where
  image_url : Option String := none
  post_url : String := ""
  post_title : String := ""
  post_date : String := ""
  labels : List String := []
  source : String := ""
  description : String := ""
  alt : String := ""
  caption : String := ""
  position_in_post : Option Int := none
deriving DecidableEq

/-- An image entry inside an aggregated post. -/
structure ImageRec where
  url : String
  alt : String
  caption : String
  pos : Int
deriving DecidableEq

/-- The per-post accumulator of `post_map` (the `defaultdict` default gives
all-empty fields). -/
structure RawPost where
  post_title : String := ""
  post_date : String := ""
  labels : List String := []
  source : String := ""
  description : String := ""
  images : List ImageRec := []
deriving DecidableEq

/-- The image dict appended for one surviving meta row; `pos` is
`int(row.get("position_in_post") or 0)`. -/
def rowImage (row : MetaRow) (u : String) : ImageRec :=
  { url := u, alt := row.alt, caption := row.caption,
    pos := row.position_in_post.getD 0 }

/-- One surviving meta row folded into its post accumulator: each post-level
field takes the first non-empty value encountered, and the image is appended. -/
def updateRawPost (row : MetaRow) (u : String) (p : RawPost) : RawPost :=
  { post_title := if p.post_title = "" then normalize row.post_title else p.post_title,
    post_date := if p.post_date = "" then normalize row.post_date else p.post_date,
    labels := if p.labels = [] then row.labels else p.labels,
    source := if p.source = "" then normalize row.source else p.source,
    description := if p.description = "" then normalize row.description else p.description,
    images := p.images ++ [rowImage row u] }

/-- The empty accumulator produced by the `defaultdict` factory. -/
def emptyRawPost : RawPost := {}

/-- Update an insertion-ordered association list at key `k`, creating the
entry at the end when absent (Python dicts preserve insertion order). -/
def updAssoc (k : String) (f : RawPost → RawPost) :
    List (String × RawPost) → List (String × RawPost)
  | [] => [(k, f emptyRawPost)]
  | (k', v) :: rest =>
    if k' = k then (k', f v) :: rest else (k', v) :: updAssoc k f rest

/-- Whether a meta row survives the noise filter (`if not u or not
host_ok(u): continue`). -/
def rowKept (row : MetaRow) : Bool :=
  match row.image_url with
  | none => false
  | some u => u ≠ "" && host_ok u

/-- Fold one meta row into `post_map`: dropped rows leave the map unchanged;
surviving rows are grouped under the whitespace-normalized post URL. -/
def insertMeta (m : List (String × RawPost)) (row : MetaRow) :
    List (String × RawPost) :=
  match row.image_url with
  | none => m
  | some u =>
    if u ≠ "" && host_ok u then
      updAssoc (normalize row.post_url) (updateRawPost row u) m
    else m

/-- `post_map` from the source: group all surviving meta rows by
whitespace-normalized post URL, in insertion order. -/
def post_map (meta : List MetaRow) : List (String × RawPost) :=
  meta.foldl insertMeta []

/-- The comparison realizing the image sort key
`(x["pos"] if x["pos"] else 999999, x["url"])`. -/
def imgLe (a b : ImageRec) : Bool :=
  let ka : Int := if a.pos = 0 then 999999 else a.pos
  let kb : Int := if b.pos = 0 then 999999 else b.pos
  decide (ka < kb ∨ (ka = kb ∧ a.url ≤ b.url))

/-- Insert into a sorted list, after any elements it ties with (stability). -/
def insertSorted (le : α → α → Bool) (x : α) : List α → List α
  | [] => [x]
  | y :: ys => if le y x then y :: insertSorted le x ys else x :: y :: ys

/-- Stable insertion sort.  Python `list.sort` is a stable sort by the same
key, and for a total preorder all stable sorts agree, so this computes the
exact list the source produces. -/
def stableSort (le : α → α → Bool) (l : List α) : List α :=
  l.foldr (insertSorted le) []

/-- `CandidatePost`: one aggregated post with its derived features. -/
structure CandidatePost where
  post_url : String
  post_title : String
  post_slug : String
  post_date : String
  post_y : Option String
  post_m : Option String
  post_decade : Option String
  labels : List String
  source : String
  description : String
  images : List ImageRec
  post_part : Option Int
deriving DecidableEq

/-- One entry of the `posts` list built from a `post_map` item, images sorted
by the stable key order.  (`decade_tag(y) if y else None` agrees with
`decade_tag` on all arguments, since `decade_tag` of an empty or absent year
is already `None`.) -/
def buildPost (pu : String) (p : RawPost) : CandidatePost :=
  let ym := extract_year_month_from_post_url pu
  { post_url := pu
    post_title := p.post_title
    post_slug := slugify p.post_title
    post_date := p.post_date
    post_y := ym.1
    post_m := ym.2
    post_decade := decade_tag ym.1
    labels := p.labels.map apply_synonyms_tokenwise
    source := p.source
    description := p.description
    images := stableSort imgLe p.images
    post_part := extract_part_number p.post_title }

/-- The full `posts` list of the source. -/
def buildPosts (meta : List MetaRow) : List CandidatePost :=
  (post_map meta).map (fun kv => buildPost kv.1 kv.2)

example :
    buildPosts
      [{ image_url := some "https://live.staticflickr.com/a/2.jpg",
         post_url := "http://b.example.com/2011/03/p.html",
         post_title := "Ghats  of Benaras", position_in_post := some 2 },
       { image_url := some "https://live.staticflickr.com/a/1.jpg",
         post_url := "http://b.example.com/2011/03/p.html",
         post_title := "ignored later title", position_in_post := some 1 }] =
    [{ post_url := "http://b.example.com/2011/03/p.html",
       post_title := "Ghats of Benaras",
       post_slug := "ghats of varanasi",
       post_date := "",
       post_y := some "2011", post_m := some "03",
       post_decade := some "2010s",
       labels := [], source := "", description := "",
       images := [⟨"https://live.staticflickr.com/a/1.jpg", "", "", 1⟩,
                  ⟨"https://live.staticflickr.com/a/2.jpg", "", "", 2⟩],
       post_part := none }] := by decide

/-- Rounding to 4 decimal places, modelling `round(x, 4)`.  (Python rounds
half-to-even on binary floats; on the exact rationals used here the two
conventions can differ only at exact half-ulp ties, which nothing below
depends on.) -/
def round4 (q : ℚ) : ℚ := (round (q * 10000) : ℚ) / 10000

/-- `post_score` from the source.  The Python function also returns a
per-component debug breakdown that no downstream code reads; only the score
is modelled.  `fz` stands for `difflib.SequenceMatcher(None, a, b).ratio()`,
a Python standard-library routine external to this repository. -/
def post_score (fz : String → String → ℚ) (index_row : LocalRecord)
    (cand : CandidatePost) : ℚ :=
  let idx_folder := slugify index_row.folder
  let idx_title := slugify index_row.title
  let jac := max (jaccard idx_folder cand.post_title)
                 (jaccard idx_title cand.post_title)
  let fuz := max (fuzzy fz idx_folder cand.post_title)
                 (fuzzy fz idx_title cand.post_title)
  let ym := year_month_from_index_date index_row.date
  let dy : ℚ :=
    match ym.1, cand.post_y with
    | some iy, some py =>
      if iy ≠ "" ∧ py ≠ "" ∧ iy = py then
        0.10 + (match ym.2, cand.post_m with
          | some im, some pm => if im ≠ "" ∧ pm ≠ "" ∧ im = pm then 0.05 else 0
          | _, _ => 0)
      else 0
    | _, _ => 0
  let dec := decade_tag ym.1
  let dboost : ℚ :=
    match dec with
    | some d =>
      if d ≠ "" ∧
          (d.data <:+:
             (lowerStr (String.mk (joinWords (cand.labels.map String.data)))).data ∨
           cand.post_decade = some d) then 0.06 else 0
    | none => 0
  let idx_tags := index_row.tags.map apply_synonyms_tokenwise
  let lab := cand.labels
  let lob : ℚ :=
    if idx_tags ≠ [] ∧ lab ≠ [] then
      let inter := (idx_tags.toFinset ∩ lab.toFinset).card
      if inter ≠ 0 then min (0.10 + 0.03 * (inter : ℚ)) 0.20 else 0
    else 0
  let idx_part := extract_part_number (index_row.folder ++ " " ++ index_row.title)
  let pbonus : ℚ :=
    match idx_part, cand.post_part with
    | some a, some b => if a ≠ 0 ∧ b ≠ 0 ∧ a = b then 0.10 else 0
    | _, _ => 0
  0.45 * jac + 0.35 * fuz + dy + dboost + lob + pbonus

/-- `image_score` from the source. -/
def image_score (index_row : LocalRecord) (image : ImageRec)
    (guessed_pos : Option Int) : ℚ :=
  let s1 : ℚ :=
    match guessed_pos with
    | some g =>
      if image.pos ≠ 0 ∧ g ≠ 0 then
        (if image.pos = g then 0.58
         else max 0 (0.46 - 0.09 * ((image.pos - g).natAbs : ℚ)))
      else 0
    | none => 0
  let idx_file_tokens := filename_tokens_from_path index_row.file
  let img_file_tokens := filename_tokens_from_path (urlPath image.url)
  let s2 : ℚ :=
    if idx_file_tokens ≠ [] ∧ img_file_tokens ≠ [] then
      let inter := (idx_file_tokens.toFinset ∩ img_file_tokens.toFinset).card
      if inter ≠ 0 then min 0.36 (0.18 + 0.10 * (inter : ℚ)) else 0
    else 0
  s1 + s2 + prefer_original image.url

/-- Per-run tunables (`--post-threshold`, `--img-threshold`). -/
structure MergeConfig where
  post_threshold : ℚ := 0.50
  img_threshold : ℚ := 0.32
deriving DecidableEq

/-- One override entry: forced post URL and optional forced image position
(already whitespace-normalized and parsed by the loader). -/
structure OverrideEntry where
  post_url : String := ""
  image_pos : Option Int := none
deriving DecidableEq

/-- One output row: the untouched local record plus the match annotations
the loop writes with `out.update({...})`. -/
structure MergedRecord where
  item : LocalRecord
  image_url : Option String
  post_url : Option String
  post_title : Option String
  post_labels : Option (List String)
  post_source : Option String
  post_description : Option String
  match_confidence : ℚ
deriving DecidableEq

/-- One row of the review CSV.  Scores are kept as exact rationals (the CSV
prints them with `%.3f`; absent cells are modelled as `none` / `""`, the
values `DictWriter` emits for missing keys). -/
structure ReviewRow where
  id : Option String
  folder : String
  title : String
  date : Option String
  reason : String
  post_score_val : Option ℚ := none
  img_score_val : Option ℚ := none
  post_title_suggested : String := ""
  post_url_suggested : String := ""
deriving DecidableEq

/-- Terminal classification of one record: the MatchOutcome tags of the
specification, read off from which branch of the loop produced the row. -/
inductive MatchTag
  | matchedFull
  | overrideForced
  | overridePostNotFound
  | overrideImageMissing
  | postLowConfidence
  | imageLowConfidence
deriving DecidableEq

/-- Everything one iteration of the merge loop contributes: the merged row,
the optional review row, the two counter increments, and the terminal tag. -/
structure StepResult where
  out : MergedRecord
  review : Option ReviewRow
  dMatched : ℕ
  dUnmatched : ℕ
  tag : MatchTag
deriving DecidableEq

/-- The best-candidate selection loop of the source: strictly improving fold
starting from best score `-1.0`, keeping the first of tied candidates. -/
def bestBy (f : α → ℚ) (xs : List α) : Option α × ℚ :=
  xs.foldl (fun acc x => if f x > acc.2 then (some x, f x) else acc) (none, -1)

/-- The forced-mapping branch of the loop (taken when the override entry has
a non-empty `post_url`).  Note that it mentions neither the thresholds nor
`post_score` nor the `fz` similarity. -/
def overrideStep (posts : List CandidatePost) (ov : OverrideEntry)
    (item : LocalRecord) : StepResult :=
  let forced_url := ov.post_url
  match posts.find? (fun p => p.post_url = forced_url) with
  | none =>
    { out := { item := item, image_url := none, post_url := some forced_url,
               post_title := none, post_labels := none, post_source := none,
               post_description := none, match_confidence := 0 },
      review := some { id := item.id, folder := item.folder, title := item.title,
                       date := item.date, reason := "override_post_not_found",
                       post_url_suggested := forced_url },
      dMatched := 0, dUnmatched := 1, tag := .overridePostNotFound }
  | some cand =>
    let guessed_pos : Option Int :=
      match ov.image_pos with
      | some n => if n ≠ 0 then some n else number_from_orig_filename item.orig_filename
      | none => number_from_orig_filename item.orig_filename
    let best := bestBy (fun im => image_score item im guessed_pos) cand.images
    match best.1 with
    | some bi =>
      { out := { item := item, image_url := some bi.url,
                 post_url := some cand.post_url, post_title := some cand.post_title,
                 post_labels := some cand.labels, post_source := some cand.source,
                 post_description := some cand.description, match_confidence := 1 },
        review := none, dMatched := 1, dUnmatched := 0, tag := .overrideForced }
    | none =>
      { out := { item := item, image_url := none,
                 post_url := some cand.post_url, post_title := some cand.post_title,
                 post_labels := some cand.labels, post_source := some cand.source,
                 post_description := some cand.description, match_confidence := 0.8 },
        review := some { id := item.id, folder := item.folder, title := item.title,
                         date := item.date, reason := "override_post_found_but_no_image",
                         post_url_suggested := cand.post_url },
        dMatched := 0, dUnmatched := 0, tag := .overrideImageMissing }

/-- The scoring flow of the loop: best post, post threshold gate, best image
inside the accepted post, image threshold gate. -/
def normalStep (cfg : MergeConfig) (fz : String → String → ℚ)
    (posts : List CandidatePost) (item : LocalRecord) : StepResult :=
  let b := bestBy (post_score fz item) posts
  let postLowResult : StepResult :=
    { out := { item := item, image_url := none, post_url := none,
               post_title := none, post_labels := none, post_source := none,
               post_description := none, match_confidence := round4 b.2 },
      review := some { id := item.id, folder := item.folder, title := item.title,
                       date := item.date, reason := "post_low_confidence",
                       post_score_val := some b.2,
                       post_title_suggested :=
                         (match b.1 with | some p => p.post_title | none => ""),
                       post_url_suggested :=
                         (match b.1 with | some p => p.post_url | none => "") },
      dMatched := 0, dUnmatched := 1, tag := .postLowConfidence }
  match b.1 with
  | none => postLowResult
  | some bp =>
    if b.2 < cfg.post_threshold then postLowResult
    else
      let guessed_pos := number_from_orig_filename item.orig_filename
      let ib := bestBy (fun im => image_score item im guessed_pos) bp.images
      let imageLowResult : StepResult :=
        { out := { item := item, image_url := none,
                   post_url := some bp.post_url, post_title := some bp.post_title,
                   post_labels := some bp.labels, post_source := some bp.source,
                   post_description := some bp.description,
                   match_confidence := round4 b.2 },
          review := some { id := item.id, folder := item.folder, title := item.title,
                           date := item.date, reason := "image_low_confidence",
                           post_score_val := some b.2, img_score_val := some ib.2,
                           post_title_suggested := bp.post_title,
                           post_url_suggested := bp.post_url },
          dMatched := 0, dUnmatched := 1, tag := .imageLowConfidence }
      match ib.1 with
      | none => imageLowResult
      | some bi =>
        if ib.2 < cfg.img_threshold then imageLowResult
        else
          { out := { item := item, image_url := some bi.url,
                     post_url := some bp.post_url, post_title := some bp.post_title,
                     post_labels := some bp.labels, post_source := some bp.source,
                     post_description := some bp.description,
                     match_confidence := round4 (min 1 (b.2 * 0.65 + ib.2 * 0.35)) },
            review := none, dMatched := 1, dUnmatched := 0, tag := .matchedFull }

/-- One full iteration of the merge loop for one local record. -/
def mergeStep (cfg : MergeConfig) (fz : String → String → ℚ)
    (posts : List CandidatePost)
    (ovr : String × String → Option OverrideEntry) (item : LocalRecord) :
    StepResult :=
  let key := (normalize item.folder, normalize item.title)
  match ovr key with
  | some ov =>
    if ov.post_url ≠ "" then overrideStep posts ov item
    else normalStep cfg fz posts item
  | none => normalStep cfg fz posts item

/-- The run-level accumulators of the loop. -/
structure RunState where
  merged : List MergedRecord := []
  review_rows : List ReviewRow := []
  matched : ℕ := 0
  unmatched : ℕ := 0
deriving DecidableEq

/-- Fold one record into the run state. -/
def runStep (cfg : MergeConfig) (fz : String → String → ℚ)
    (posts : List CandidatePost)
    (ovr : String × String → Option OverrideEntry) (st : RunState)
    (item : LocalRecord) : RunState :=
  let r := mergeStep cfg fz posts ovr item
  { merged := st.merged ++ [r.out],
    review_rows := st.review_rows ++ r.review.toList,
    matched := st.matched + r.dMatched,
    unmatched := st.unmatched + r.dUnmatched }

/-- The whole merge pass over the local index. -/
def runMerge (cfg : MergeConfig) (fz : String → String → ℚ)
    (posts : List CandidatePost)
    (ovr : String × String → Option OverrideEntry)
    (index : List LocalRecord) : RunState :=
  index.foldl (runStep cfg fz posts ovr) {}

/-! Basic facts about the loop structure. -/

theorem overrideStep_out_item (posts : List CandidatePost) (ov : OverrideEntry)
    (item : LocalRecord) : (overrideStep posts ov item).out.item = item := by
  unfold overrideStep
  dsimp only
  split
  · rfl
  · split <;> rfl

theorem normalStep_out_item (cfg : MergeConfig) (fz : String → String → ℚ)
    (posts : List CandidatePost) (item : LocalRecord) :
    (normalStep cfg fz posts item).out.item = item := by
  unfold normalStep
  dsimp only
  split
  · rfl
  · split
    · rfl
    · split
      · rfl
      · split <;> rfl

theorem mergeStep_out_item (cfg : MergeConfig) (fz : String → String → ℚ)
    (posts : List CandidatePost) (ovr : String × String → Option OverrideEntry)
    (item : LocalRecord) : (mergeStep cfg fz posts ovr item).out.item = item := by
  unfold mergeStep
  dsimp only
  split
  · split
    · exact overrideStep_out_item posts _ item
    · exact normalStep_out_item cfg fz posts item
  · exact normalStep_out_item cfg fz posts item

/-- Closed form of the run fold: each accumulator field is the initial value
extended by the per-record contributions, in input order. -/
theorem runMerge_foldl_char (cfg : MergeConfig) (fz : String → String → ℚ)
    (posts : List CandidatePost) (ovr : String × String → Option OverrideEntry)
    (index : List LocalRecord) (st : RunState) :
    index.foldl (runStep cfg fz posts ovr) st =
      { merged := st.merged ++
          index.map (fun it => (mergeStep cfg fz posts ovr it).out),
        review_rows := st.review_rows ++
          index.filterMap (fun it => (mergeStep cfg fz posts ovr it).review),
        matched := st.matched +
          (index.map (fun it => (mergeStep cfg fz posts ovr it).dMatched)).sum,
        unmatched := st.unmatched +
          (index.map (fun it => (mergeStep cfg fz posts ovr it).dUnmatched)).sum } := by
  induction index generalizing st with
  | nil => simp
  | cons it rest ih =>
    rw [List.foldl_cons, ih]
    simp only [runStep, List.map_cons, List.filterMap_cons, List.sum_cons]
    rcases h : (mergeStep cfg fz posts ovr it).review with _ | rr <;>
      simp [h, Option.toList, List.append_assoc, Nat.add_assoc]

/-- The four run accumulators in closed form. -/
theorem runMerge_char (cfg : MergeConfig) (fz : String → String → ℚ)
    (posts : List CandidatePost) (ovr : String × String → Option OverrideEntry)
    (index : List LocalRecord) :
    runMerge cfg fz posts ovr index =
      { merged := index.map (fun it => (mergeStep cfg fz posts ovr it).out),
        review_rows := index.filterMap (fun it => (mergeStep cfg fz posts ovr it).review),
        matched := (index.map (fun it => (mergeStep cfg fz posts ovr it).dMatched)).sum,
        unmatched :=
          (index.map (fun it => (mergeStep cfg fz posts ovr it).dUnmatched)).sum } := by
  have h := runMerge_foldl_char cfg fz posts ovr index {}
  simpa [runMerge] using h

/-- C2: for every input list of LocalRecords and every pair of threshold
values, the merged output has exactly one MergedRecord per input LocalRecord,
in input order: it is precisely the input list mapped through the per-record
step, so its length equals the input length and projecting each output row to
its embedded LocalRecord recovers the input list unchanged. -/
theorem merged_one_per_input_in_order (cfg : MergeConfig)
    (fz : String → String → ℚ) (posts : List CandidatePost)
    (ovr : String × String → Option OverrideEntry) (index : List LocalRecord) :
    (runMerge cfg fz posts ovr index).merged =
      index.map (fun it => (mergeStep cfg fz posts ovr it).out) ∧
    (runMerge cfg fz posts ovr index).merged.length = index.length ∧
    (runMerge cfg fz posts ovr index).merged.map (fun r => r.item) = index := by
  have h := runMerge_char cfg fz posts ovr index
  refine ⟨by rw [h], by rw [h]; simp, ?_⟩
  rw [h]
  simp only [List.map_map]
  have : ∀ it ∈ index,
      ((fun r => r.item) ∘ fun it => (mergeStep cfg fz posts ovr it).out) it = id it := by
    intro it _
    simp [mergeStep_out_item]
  rw [List.map_congr_left this, List.map_id]

/-! Concrete instantiations used by counterexamples and witnesses. -/

/-- The zero similarity, a legitimate instantiation of the external ratio. -/
def fzZero : String → String → ℚ := fun _ _ => 0

/-- The empty override table (no `--overrides` file). -/
def ovrEmpty : String × String → Option OverrideEntry := fun _ => none

/-- A local record whose override entry carries an empty forced URL. -/
def itemC1 : LocalRecord := { folder := "ghats", title := "x" }

/-- A candidate post with empty title and no images. -/
def candC1 : CandidatePost :=
  { post_url := "u", post_title := "", post_slug := "", post_date := "",
    post_y := none, post_m := none, post_decade := none, labels := [],
    source := "", description := "", images := [], post_part := none }

/-- An override table that has an entry for `itemC1` whose `post_url` is
empty (as produced by a CSV row with a blank `post_url` column). -/
def ovrC1 : String × String → Option OverrideEntry :=
  fun k => if k = ("ghats", "x") then some { post_url := "", image_pos := none } else none

theorem jaccard_empty_right (a : String) : jaccard a "" = 0 := by
  unfold jaccard
  exact if_pos (Or.inr (by decide))

theorem post_score_itemC1 : post_score fzZero itemC1 candC1 = 0 := by
  have hp : extract_part_number ("ghats" ++ " " ++ "x") = none := by decide
  simp only [post_score, itemC1, candC1, fzZero, fuzzy, hp, jaccard_empty_right]
  norm_num [year_month_from_index_date, decade_tag]

theorem bestBy_singleton {α : Type} (f : α → ℚ) (x : α) :
    bestBy f [x] = if f x > -1 then (some x, f x) else (none, -1) := rfl

theorem bestBy_candC1 : bestBy (post_score fzZero itemC1) [candC1] = (some candC1, 0) := by
  rw [bestBy_singleton, post_score_itemC1, if_pos (by norm_num)]

/-- C1 counterexample: `itemC1` has an override entry, yet its outcome does
depend on the post-acceptance threshold (the entry's forced URL is empty, so
the code falls through to the scoring flow). -/
theorem override_entry_not_always_bypassing :
    (ovrC1 (normalize itemC1.folder, normalize itemC1.title)).isSome = true ∧
    (mergeStep { post_threshold := 0, img_threshold := 0 } fzZero [candC1]
        ovrC1 itemC1).tag = .imageLowConfidence ∧
    (mergeStep { post_threshold := 1, img_threshold := 0 } fzZero [candC1]
        ovrC1 itemC1).tag = .postLowConfidence ∧
    mergeStep { post_threshold := 0, img_threshold := 0 } fzZero [candC1] ovrC1 itemC1 ≠
      mergeStep { post_threshold := 1, img_threshold := 0 } fzZero [candC1] ovrC1 itemC1 := by
  have hov : ovrC1 (normalize itemC1.folder, normalize itemC1.title) =
      some { post_url := "", image_pos := none } := by decide
  have hstep : ∀ t : ℚ,
      mergeStep { post_threshold := t, img_threshold := 0 } fzZero [candC1] ovrC1 itemC1 =
        normalStep { post_threshold := t, img_threshold := 0 } fzZero [candC1] itemC1 := by
    intro t
    unfold mergeStep
    dsimp only
    rw [hov]
    simp
  have h0 : (normalStep { post_threshold := 0, img_threshold := 0 } fzZero [candC1]
      itemC1).tag = .imageLowConfidence := by
    unfold normalStep
    dsimp only
    rw [bestBy_candC1]
    norm_num
    rfl
  have h1 : (normalStep { post_threshold := 1, img_threshold := 0 } fzZero [candC1]
      itemC1).tag = .postLowConfidence := by
    unfold normalStep
    dsimp only
    rw [bestBy_candC1]
    norm_num
  refine ⟨by rw [hov]; rfl, by rw [hstep]; exact h0, by rw [hstep]; exact h1, ?_⟩
  intro heq
  rw [hstep, hstep] at heq
  rw [heq] at h0
  rw [h1] at h0
  exact MatchTag.noConfusion h0

/-- C1 (amended): a record whose override entry carries a NON-EMPTY forced
post URL is handled entirely by the forced-mapping branch: its result equals
`overrideStep`, a function that mentions neither `post_score`, nor the
external similarity `fz`, nor either acceptance threshold, so the outcome is
independent of both tunables and of the scoring functions. -/
theorem override_bypasses_scoring (cfg cfg' : MergeConfig)
    (fz fz' : String → String → ℚ) (posts : List CandidatePost)
    (ovr : String × String → Option OverrideEntry) (item : LocalRecord)
    (e : OverrideEntry)
    (hk : ovr (normalize item.folder, normalize item.title) = some e)
    (hne : e.post_url ≠ "") :
    mergeStep cfg fz posts ovr item = overrideStep posts e item ∧
    mergeStep cfg fz posts ovr item = mergeStep cfg' fz' posts ovr item := by
  have h : ∀ (c : MergeConfig) (g : String → String → ℚ),
      mergeStep c g posts ovr item = overrideStep posts e item := by
    intro c g
    unfold mergeStep
    dsimp only
    rw [hk]
    exact if_pos hne
  exact ⟨h cfg fz, (h cfg fz).trans (h cfg' fz').symm⟩

/-- Witness for the amended C1 at a concrete override table and record. -/
def ovrC1W : String × String → Option OverrideEntry :=
  fun k => if k = ("f", "t") then some { post_url := "u", image_pos := none } else none

theorem override_bypasses_scoring_witness :
    (ovrC1W (normalize (LocalRecord.mk none "f" "t" none none "" []).folder,
        normalize (LocalRecord.mk none "f" "t" none none "" []).title) =
      some { post_url := "u", image_pos := none } ∧
     ({ post_url := "u", image_pos := none } : OverrideEntry).post_url ≠ "") ∧
    (mergeStep {} fzZero [candC1] ovrC1W (LocalRecord.mk none "f" "t" none none "" []) =
        overrideStep [candC1] { post_url := "u", image_pos := none }
          (LocalRecord.mk none "f" "t" none none "" []) ∧
     mergeStep {} fzZero [candC1] ovrC1W (LocalRecord.mk none "f" "t" none none "" []) =
        mergeStep { post_threshold := 0.9, img_threshold := 0.1 } fzZero [candC1] ovrC1W
          (LocalRecord.mk none "f" "t" none none "" [])) :=
  ⟨⟨by decide, by decide⟩,
   override_bypasses_scoring {} { post_threshold := 0.9, img_threshold := 0.1 }
     fzZero fzZero [candC1] ovrC1W (LocalRecord.mk none "f" "t" none none "" [])
     { post_url := "u", image_pos := none } (by decide) (by decide)⟩

/-- The image stage always ends in one of the two scoring terminal tags. -/
theorem normalStep_tag_cases (cfg : MergeConfig) (fz : String → String → ℚ)
    (posts : List CandidatePost) (item : LocalRecord) :
    (normalStep cfg fz posts item).tag = .postLowConfidence ∨
    (normalStep cfg fz posts item).tag = .matchedFull ∨
    (normalStep cfg fz posts item).tag = .imageLowConfidence := by
  unfold normalStep
  dsimp only
  split
  · left; rfl
  · split
    · left; rfl
    · split
      · right; right; rfl
      · split
        · right; right; rfl
        · right; left; rfl

/-- C9 at the level of the scoring flow: the best post and its score do not
depend on the threshold, which is consulted only as the acceptance gate. -/
theorem normalStep_threshold_mono (fz : String → String → ℚ)
    (posts : List CandidatePost) (item : LocalRecord) (ti t1 t2 : ℚ)
    (h : t1 ≤ t2) :
    normalStep { post_threshold := t2, img_threshold := ti } fz posts item =
      normalStep { post_threshold := t1, img_threshold := ti } fz posts item ∨
    ((normalStep { post_threshold := t2, img_threshold := ti } fz posts item).tag
        = .postLowConfidence ∧
     ((normalStep { post_threshold := t1, img_threshold := ti } fz posts item).tag
        = .matchedFull ∨
      (normalStep { post_threshold := t1, img_threshold := ti } fz posts item).tag
        = .imageLowConfidence)) := by
  unfold normalStep
  dsimp only
  cases hb : (bestBy (post_score fz item) posts).1 with
  | none => left; rfl
  | some bp =>
    dsimp only
    by_cases h1 : (bestBy (post_score fz item) posts).2 < t1
    · rw [if_pos h1, if_pos (lt_of_lt_of_le h1 h)]
      left; rfl
    · by_cases h2 : (bestBy (post_score fz item) posts).2 < t2
      · rw [if_pos h2, if_neg h1]
        right
        refine ⟨rfl, ?_⟩
        split
        · right; rfl
        · split
          · right; rfl
          · left; rfl
      · rw [if_neg h2, if_neg h1]
        left; rfl

/-- C9: for fixed inputs, raising the post-acceptance threshold either leaves
a record's step result unchanged or moves it from `matched` /
`image_low_confidence` into `post_low_confidence`; never the reverse. -/
theorem raising_post_threshold_monotone (fz : String → String → ℚ)
    (posts : List CandidatePost) (ovr : String × String → Option OverrideEntry)
    (item : LocalRecord) (ti t1 t2 : ℚ) (h : t1 ≤ t2) :
    mergeStep { post_threshold := t2, img_threshold := ti } fz posts ovr item =
      mergeStep { post_threshold := t1, img_threshold := ti } fz posts ovr item ∨
    ((mergeStep { post_threshold := t2, img_threshold := ti } fz posts ovr item).tag
        = .postLowConfidence ∧
     ((mergeStep { post_threshold := t1, img_threshold := ti } fz posts ovr item).tag
        = .matchedFull ∨
      (mergeStep { post_threshold := t1, img_threshold := ti } fz posts ovr item).tag
        = .imageLowConfidence)) := by
  unfold mergeStep
  dsimp only
  cases hov : ovr (normalize item.folder, normalize item.title) with
  | none => exact normalStep_threshold_mono fz posts item ti t1 t2 h
  | some ov =>
    dsimp only
    by_cases hne : ov.post_url ≠ ""
    · rw [if_pos hne, if_pos hne]
      left; rfl
    · rw [if_neg hne, if_neg hne]
      exact normalStep_threshold_mono fz posts item ti t1 t2 h

theorem raising_post_threshold_monotone_witness :
    ((0.5 : ℚ) ≤ 0.75) ∧
    (mergeStep { post_threshold := 0.75, img_threshold := 0.32 } fzZero [candC1]
        ovrEmpty itemC1 =
      mergeStep { post_threshold := 0.5, img_threshold := 0.32 } fzZero [candC1]
        ovrEmpty itemC1 ∨
    ((mergeStep { post_threshold := 0.75, img_threshold := 0.32 } fzZero [candC1]
        ovrEmpty itemC1).tag = .postLowConfidence ∧
     ((mergeStep { post_threshold := 0.5, img_threshold := 0.32 } fzZero [candC1]
        ovrEmpty itemC1).tag = .matchedFull ∨
      (mergeStep { post_threshold := 0.5, img_threshold := 0.32 } fzZero [candC1]
        ovrEmpty itemC1).tag = .imageLowConfidence))) :=
  ⟨by norm_num,
   raising_post_threshold_monotone fzZero [candC1] ovrEmpty itemC1 0.32 0.5 0.75
     (by norm_num)⟩

/-! The Post Matcher formula (C5). -/

/-- The Post Matcher score exactly as the examined claim words it: in
particular the part bonus is granted whenever both extracted part numbers are
non-null and equal. -/
def post_score_claimed (fz : String → String → ℚ) (index_row : LocalRecord)
    (cand : CandidatePost) : ℚ :=
  let idx_folder := slugify index_row.folder
  let idx_title := slugify index_row.title
  let jac := max (jaccard idx_folder cand.post_title)
                 (jaccard idx_title cand.post_title)
  let fuz := max (fuzzy fz idx_folder cand.post_title)
                 (fuzzy fz idx_title cand.post_title)
  let ym := year_month_from_index_date index_row.date
  let dy : ℚ :=
    match ym.1, cand.post_y with
    | some iy, some py =>
      if iy = py then
        0.10 + (match ym.2, cand.post_m with
          | some im, some pm => if im = pm then 0.05 else 0
          | _, _ => 0)
      else 0
    | _, _ => 0
  let dboost : ℚ :=
    match decade_tag ym.1 with
    | some d =>
      if d.data <:+:
           (lowerStr (String.mk (joinWords (cand.labels.map String.data)))).data ∨
         cand.post_decade = some d then 0.06 else 0
    | none => 0
  let inter := ((index_row.tags.map apply_synonyms_tokenwise).toFinset ∩
    cand.labels.toFinset).card
  let lob : ℚ := if inter ≠ 0 then min (0.10 + 0.03 * (inter : ℚ)) 0.20 else 0
  let pbonus : ℚ :=
    match extract_part_number (index_row.folder ++ " " ++ index_row.title),
        cand.post_part with
    | some a, some b => if a = b then 0.10 else 0
    | _, _ => 0
  0.45 * jac + 0.35 * fuz + dy + dboost + lob + pbonus

/-- The claim amended at the part bonus only: both part numbers must be
non-null, EQUAL AND NONZERO (Python treats an extracted part number 0 as
falsy, so it earns no bonus). -/
def post_score_amended (fz : String → String → ℚ) (index_row : LocalRecord)
    (cand : CandidatePost) : ℚ :=
  let idx_folder := slugify index_row.folder
  let idx_title := slugify index_row.title
  let jac := max (jaccard idx_folder cand.post_title)
                 (jaccard idx_title cand.post_title)
  let fuz := max (fuzzy fz idx_folder cand.post_title)
                 (fuzzy fz idx_title cand.post_title)
  let ym := year_month_from_index_date index_row.date
  let dy : ℚ :=
    match ym.1, cand.post_y with
    | some iy, some py =>
      if iy = py then
        0.10 + (match ym.2, cand.post_m with
          | some im, some pm => if im = pm then 0.05 else 0
          | _, _ => 0)
      else 0
    | _, _ => 0
  let dboost : ℚ :=
    match decade_tag ym.1 with
    | some d =>
      if d.data <:+:
           (lowerStr (String.mk (joinWords (cand.labels.map String.data)))).data ∨
         cand.post_decade = some d then 0.06 else 0
    | none => 0
  let inter := ((index_row.tags.map apply_synonyms_tokenwise).toFinset ∩
    cand.labels.toFinset).card
  let lob : ℚ := if inter ≠ 0 then min (0.10 + 0.03 * (inter : ℚ)) 0.20 else 0
  let pbonus : ℚ :=
    match extract_part_number (index_row.folder ++ " " ++ index_row.title),
        cand.post_part with
    | some a, some b => if a = b ∧ a ≠ 0 then 0.10 else 0
    | _, _ => 0
  0.45 * jac + 0.35 * fuz + dy + dboost + lob + pbonus

theorem ym_fst_ne_empty (d : Option String) (y : String)
    (h : (year_month_from_index_date d).1 = some y) : y ≠ "" := by
  cases d with
  | none => exact absurd h (by simp [year_month_from_index_date])
  | some s =>
    simp only [year_month_from_index_date] at h
    split at h
    · split at h
      · simp only [Option.some.injEq] at h
        subst h
        intro he
        have := congrArg String.data he
        simp at this
      · exact absurd h (by simp)
    · exact absurd h (by simp)

theorem ym_snd_ne_empty (d : Option String) (m : String)
    (h : (year_month_from_index_date d).2 = some m) : m ≠ "" := by
  cases d with
  | none => exact absurd h (by simp [year_month_from_index_date])
  | some s =>
    simp only [year_month_from_index_date] at h
    split at h
    · split at h
      · simp only [Option.some.injEq] at h
        subst h
        intro he
        have := congrArg String.data he
        simp at this
      · exact absurd h (by simp)
    · exact absurd h (by simp)

theorem decade_tag_ne_empty (o : Option String) (d : String)
    (h : decade_tag o = some d) : d ≠ "" := by
  cases o with
  | none => exact absurd h (by simp [decade_tag])
  | some y =>
    simp only [decade_tag] at h
    split at h
    · simp only [Option.some.injEq] at h
      subst h
      intro he
      have := congrArg String.data he
      simp at this
    · exact absurd h (by simp)

/-- C5 (amended): `post_score` computes exactly the claimed weighted formula,
with the part bonus condition strengthened to nonzero part numbers. -/
theorem post_score_eq_amended (fz : String → String → ℚ)
    (item : LocalRecord) (cand : CandidatePost) :
    post_score fz item cand = post_score_amended fz item cand := by
  unfold post_score post_score_amended
  dsimp only
  congr 1
  · congr 1
    · congr 1
      · -- date boost (the jaccard and fuzzy prefix closes by congruence)
        congr 1
        rcases hy : (year_month_from_index_date item.date).1 with _ | iy
        · rfl
        · rcases hpy : cand.post_y with _ | py
          · rfl
          · dsimp only
            by_cases heq : iy = py
            · have hiy := ym_fst_ne_empty item.date iy hy
              rw [if_pos ⟨hiy, heq ▸ hiy, heq⟩, if_pos heq]
              congr 1
              rcases hm : (year_month_from_index_date item.date).2 with _ | im
              · rfl
              · rcases hpm : cand.post_m with _ | pm
                · rfl
                · dsimp only
                  by_cases hmeq : im = pm
                  · have him := ym_snd_ne_empty item.date im hm
                    rw [if_pos ⟨him, hmeq ▸ him, hmeq⟩, if_pos hmeq]
                  · rw [if_neg (by tauto), if_neg hmeq]
            · rw [if_neg (by tauto), if_neg heq]
      · -- decade boost
        rcases hd : decade_tag (year_month_from_index_date item.date).1 with _ | d
        · rfl
        · dsimp only
          have hdne := decade_tag_ne_empty _ d hd
          by_cases hc : d.data <:+:
              (lowerStr (String.mk (joinWords (cand.labels.map String.data)))).data ∨
              cand.post_decade = some d
          · rw [if_pos ⟨hdne, hc⟩, if_pos hc]
          · rw [if_neg (by tauto), if_neg hc]
    · -- label overlap
      by_cases hne : item.tags.map apply_synonyms_tokenwise ≠ [] ∧ cand.labels ≠ []
      · rw [if_pos hne]
      · rw [if_neg hne]
        have hzero : ((item.tags.map apply_synonyms_tokenwise).toFinset ∩
            cand.labels.toFinset).card = 0 := by
          rcases not_and_or.mp hne with h | h
          · have : item.tags.map apply_synonyms_tokenwise = [] := not_not.mp h
            simp [this]
          · have : cand.labels = [] := not_not.mp h
            simp [this]
        rw [if_neg (by simp [hzero])]
  · -- part bonus
    rcases extract_part_number (item.folder ++ " " ++ item.title) with _ | a
    · rfl
    · rcases cand.post_part with _ | b
      · rfl
      · dsimp only
        by_cases hab : a = b
        · by_cases ha : a = 0
          · rw [if_neg (by tauto), if_neg (by tauto)]
          · rw [if_pos ⟨ha, hab ▸ ha, hab⟩, if_pos ⟨hab, ha⟩]
        · rw [if_neg (by tauto), if_neg (by tauto)]

/-- A record and candidate that both carry extracted part number 0. -/
def itemC5 : LocalRecord := { folder := "part 0" }

/-- Candidate with `post_part = 0` and empty title. -/
def candC5 : CandidatePost :=
  { post_url := "u5", post_title := "", post_slug := "", post_date := "",
    post_y := none, post_m := none, post_decade := none, labels := [],
    source := "", description := "", images := [], post_part := some 0 }

/-- C5 counterexample: at part number 0 (non-null and equal on both sides)
the code pays no part bonus — Python truthiness of the integer 0 — so
`post_score` differs from the formula as the claim states it. -/
theorem post_score_claimed_formula_false :
    post_score fzZero itemC5 candC5 ≠ post_score_claimed fzZero itemC5 candC5 := by
  have hp : extract_part_number ("part 0" ++ " " ++ "") = some 0 := by decide
  have h1 : post_score fzZero itemC5 candC5 = 0 := by
    simp only [post_score, itemC5, candC5, fzZero, fuzzy, hp, jaccard_empty_right]
    norm_num [year_month_from_index_date, decade_tag]
  have h2 : post_score_claimed fzZero itemC5 candC5 = 0.10 := by
    simp only [post_score_claimed, itemC5, candC5, fzZero, fuzzy, hp, jaccard_empty_right]
    norm_num [year_month_from_index_date, decade_tag]
  rw [h1, h2]
  norm_num

/-! Properties of the best-candidate fold and of the two score functions. -/

theorem foldl_best_snd_ge {α : Type} (f : α → ℚ) (xs : List α)
    (acc : Option α × ℚ) :
    acc.2 ≤ (xs.foldl (fun acc x => if f x > acc.2 then (some x, f x) else acc) acc).2 := by
  induction xs generalizing acc with
  | nil => exact le_refl _
  | cons x xs ih =>
    rw [List.foldl_cons]
    refine le_trans ?_ (ih _)
    by_cases h : f x > acc.2
    · rw [if_pos h]
      exact le_of_lt h
    · rw [if_neg h]

theorem foldl_best_isSome {α : Type} (f : α → ℚ) (xs : List α)
    (acc : Option α × ℚ) (h : acc.1.isSome = true) :
    (xs.foldl (fun acc x => if f x > acc.2 then (some x, f x) else acc) acc).1.isSome
      = true := by
  induction xs generalizing acc with
  | nil => exact h
  | cons x xs ih =>
    rw [List.foldl_cons]
    by_cases hx : f x > acc.2
    · rw [if_pos hx]
      exact ih _ rfl
    · rw [if_neg hx]
      exact ih _ h

theorem bestBy_nil {α : Type} (f : α → ℚ) : bestBy f ([] : List α) = (none, -1) := rfl

/-- On a non-empty list of candidates with non-negative scores, the selection
loop always selects something, with a non-negative best score. -/
theorem bestBy_pos_spec {α : Type} (f : α → ℚ) (xs : List α) (hne : xs ≠ [])
    (hf : ∀ x ∈ xs, 0 ≤ f x) :
    (bestBy f xs).1.isSome = true ∧ 0 ≤ (bestBy f xs).2 := by
  cases xs with
  | nil => exact absurd rfl hne
  | cons x xs =>
    have h0 : f x > (-1 : ℚ) :=
      lt_of_lt_of_le (by norm_num) (hf x (List.mem_cons_self x xs))
    unfold bestBy
    rw [List.foldl_cons, if_pos h0]
    refine ⟨foldl_best_isSome f xs _ rfl, ?_⟩
    exact le_trans (hf x (List.mem_cons_self x xs)) (foldl_best_snd_ge f xs _)

theorem prefer_original_nonneg (u : String) : 0 ≤ prefer_original u := by
  unfold prefer_original
  have h1 : (0 : ℚ) ≤ if "/s0/".data <:+: u.data then (0.2 : ℚ) else 0 := by
    split <;> norm_num
  have h2 : (0 : ℚ) ≤ if "imgmax=0".data <:+: u.data then (0.2 : ℚ) else 0 := by
    split <;> norm_num
  linarith

theorem image_score_nonneg (ir : LocalRecord) (im : ImageRec)
    (gp : Option Int) : 0 ≤ image_score ir im gp := by
  unfold image_score
  dsimp only
  have h1 : (0 : ℚ) ≤
      (match gp with
       | some g =>
         if im.pos ≠ 0 ∧ g ≠ 0 then
           (if im.pos = g then (0.58 : ℚ)
            else max 0 (0.46 - 0.09 * ((im.pos - g).natAbs : ℚ)))
         else 0
       | none => 0) := by
    rcases gp with _ | g
    · exact le_refl 0
    · dsimp only
      split
      · split
        · norm_num
        · exact le_max_left 0 _
      · exact le_refl 0
  have h2 : (0 : ℚ) ≤
      (if filename_tokens_from_path ir.file ≠ [] ∧
          filename_tokens_from_path (urlPath im.url) ≠ [] then
         (if ((filename_tokens_from_path ir.file).toFinset ∩
              (filename_tokens_from_path (urlPath im.url)).toFinset).card ≠ 0 then
            min (0.36 : ℚ) (0.18 + 0.10 *
              (((filename_tokens_from_path ir.file).toFinset ∩
                (filename_tokens_from_path (urlPath im.url)).toFinset).card : ℚ))
          else 0)
       else 0) := by
    split
    · split
      · refine le_min (by norm_num) ?_
        positivity
      · exact le_refl 0
    · exact le_refl 0
  have h3 := prefer_original_nonneg im.url
  linarith

theorem jaccard_nonneg (a b : String) : 0 ≤ jaccard a b := by
  unfold jaccard
  dsimp only
  split
  · exact le_refl 0
  · positivity

theorem post_score_nonneg (fz : String → String → ℚ)
    (hfz : ∀ a b, 0 ≤ fz a b) (item : LocalRecord) (cand : CandidatePost) :
    0 ≤ post_score fz item cand := by
  unfold post_score
  dsimp only
  have hjac : (0:ℚ) ≤ max (jaccard (slugify item.folder) cand.post_title)
      (jaccard (slugify item.title) cand.post_title) :=
    le_trans (jaccard_nonneg _ _) (le_max_left _ _)
  have hfuz : (0:ℚ) ≤ max (fuzzy fz (slugify item.folder) cand.post_title)
      (fuzzy fz (slugify item.title) cand.post_title) :=
    le_trans (hfz _ _) (le_max_left _ _)
  have hdy : (0:ℚ) ≤
      (match (year_month_from_index_date item.date).1, cand.post_y with
       | some iy, some py =>
         if iy ≠ "" ∧ py ≠ "" ∧ iy = py then
           (0.10 : ℚ) + (match (year_month_from_index_date item.date).2, cand.post_m with
             | some im, some pm => if im ≠ "" ∧ pm ≠ "" ∧ im = pm then (0.05:ℚ) else 0
             | _, _ => 0)
         else 0
       | _, _ => 0) := by
    rcases (year_month_from_index_date item.date).1 with _ | iy
    · exact le_refl 0
    · rcases cand.post_y with _ | py
      · exact le_refl 0
      · dsimp only
        split
        · rcases (year_month_from_index_date item.date).2 with _ | im
          · dsimp only
            norm_num
          · rcases cand.post_m with _ | pm
            · dsimp only
              norm_num
            · dsimp only
              split <;> norm_num
        · exact le_refl 0
  have hdb : (0:ℚ) ≤
      (match decade_tag (year_month_from_index_date item.date).1 with
       | some d =>
         if d ≠ "" ∧
             (d.data <:+:
                (lowerStr (String.mk (joinWords (cand.labels.map String.data)))).data ∨
              cand.post_decade = some d) then (0.06:ℚ) else 0
       | none => 0) := by
    rcases decade_tag (year_month_from_index_date item.date).1 with _ | d
    · exact le_refl 0
    · dsimp only
      split <;> norm_num
  have hlob : (0:ℚ) ≤
      (if item.tags.map apply_synonyms_tokenwise ≠ [] ∧ cand.labels ≠ [] then
         (if ((item.tags.map apply_synonyms_tokenwise).toFinset ∩
              cand.labels.toFinset).card ≠ 0 then
            min ((0.10:ℚ) + 0.03 * (((item.tags.map apply_synonyms_tokenwise).toFinset ∩
              cand.labels.toFinset).card : ℚ)) 0.20
          else 0)
       else 0) := by
    split
    · split
      · refine le_min ?_ (by norm_num)
        positivity
      · exact le_refl 0
    · exact le_refl 0
  have hpb : (0:ℚ) ≤
      (match extract_part_number (item.folder ++ " " ++ item.title), cand.post_part with
       | some a, some b => if a ≠ 0 ∧ b ≠ 0 ∧ a = b then (0.10:ℚ) else 0
       | _, _ => 0) := by
    rcases extract_part_number (item.folder ++ " " ++ item.title) with _ | a
    · exact le_refl 0
    · rcases cand.post_part with _ | b
      · exact le_refl 0
      · dsimp only
        split <;> norm_num
  have h1 : (0:ℚ) ≤ 0.45 * max (jaccard (slugify item.folder) cand.post_title)
      (jaccard (slugify item.title) cand.post_title) := by linarith
  have h2 : (0:ℚ) ≤ 0.35 * max (fuzzy fz (slugify item.folder) cand.post_title)
      (fuzzy fz (slugify item.title) cand.post_title) := by linarith
  linarith

/-! The aggregator never creates a post without an image: a `post_map` entry
comes into being only when a surviving row appends its image. -/

theorem updAssoc_images_ne_nil (k : String) (row : MetaRow) (u : String)
    (m : List (String × RawPost)) (hm : ∀ kv ∈ m, kv.2.images ≠ []) :
    ∀ kv ∈ updAssoc k (updateRawPost row u) m, kv.2.images ≠ [] := by
  induction m with
  | nil =>
    intro kv hkv
    simp only [updAssoc, List.mem_singleton] at hkv
    subst hkv
    simp [updateRawPost]
  | cons p m ih =>
    intro kv hkv
    rw [updAssoc] at hkv
    split at hkv
    · rcases List.mem_cons.mp hkv with h | h
      · subst h
        simp [updateRawPost]
      · exact hm _ (List.mem_cons_of_mem _ h)
    · rcases List.mem_cons.mp hkv with h | h
      · subst h
        exact hm _ (List.mem_cons_self _ _)
      · exact ih (fun kv hk => hm kv (List.mem_cons_of_mem _ hk)) _ h

theorem post_map_images_ne_nil (meta : List MetaRow) :
    ∀ kv ∈ post_map meta, kv.2.images ≠ [] := by
  suffices h : ∀ acc : List (String × RawPost), (∀ kv ∈ acc, kv.2.images ≠ []) →
      ∀ kv ∈ meta.foldl insertMeta acc, kv.2.images ≠ [] by
    exact h [] (by intro kv h; cases h)
  induction meta with
  | nil => intro acc hacc; exact hacc
  | cons row rest ih =>
    intro acc hacc
    rw [List.foldl_cons]
    refine ih _ ?_
    unfold insertMeta
    rcases row.image_url with _ | u
    · exact hacc
    · dsimp only
      split
      · exact updAssoc_images_ne_nil _ row u acc hacc
      · exact hacc

theorem insertSorted_ne_nil {α : Type} (le : α → α → Bool) (x : α) (l : List α) :
    insertSorted le x l ≠ [] := by
  cases l with
  | nil => simp [insertSorted]
  | cons y ys =>
    rw [insertSorted]
    split <;> simp

theorem stableSort_ne_nil {α : Type} (le : α → α → Bool) (l : List α)
    (h : l ≠ []) : stableSort le l ≠ [] := by
  cases l with
  | nil => exact absurd rfl h
  | cons x xs => exact insertSorted_ne_nil le x _

theorem buildPosts_images_ne_nil (meta : List MetaRow) :
    ∀ p ∈ buildPosts meta, p.images ≠ [] := by
  intro p hp
  rcases List.mem_map.mp hp with ⟨kv, hkv, hb⟩
  subst hb
  exact stableSort_ne_nil imgLe kv.2.images (post_map_images_ne_nil meta kv hkv)

/-! Counter consistency (C3) and the override image-selection guarantee (C10). -/

theorem overrideStep_counter (posts : List CandidatePost) (ov : OverrideEntry)
    (item : LocalRecord) (hp : ∀ p ∈ posts, p.images ≠ []) :
    (overrideStep posts ov item).dMatched + (overrideStep posts ov item).dUnmatched = 1 ∧
    (overrideStep posts ov item).dUnmatched =
      ((overrideStep posts ov item).review).toList.length := by
  unfold overrideStep
  dsimp only
  cases hf : posts.find? (fun p => p.post_url = ov.post_url) with
  | none => exact ⟨rfl, rfl⟩
  | some cand =>
    dsimp only
    have hmem : cand ∈ posts := List.mem_of_find?_eq_some hf
    have hne := hp cand hmem
    have hbest := bestBy_pos_spec
      (fun im => image_score item im
        (match ov.image_pos with
         | some n => if n ≠ 0 then some n else number_from_orig_filename item.orig_filename
         | none => number_from_orig_filename item.orig_filename))
      cand.images hne (fun im _ => image_score_nonneg item im _)
    cases hb : (bestBy (fun im => image_score item im
        (match ov.image_pos with
         | some n => if n ≠ 0 then some n else number_from_orig_filename item.orig_filename
         | none => number_from_orig_filename item.orig_filename)) cand.images).1 with
    | none => rw [hb] at hbest; exact absurd hbest.1 (by simp)
    | some bi => exact ⟨rfl, rfl⟩

theorem normalStep_counter (cfg : MergeConfig) (fz : String → String → ℚ)
    (posts : List CandidatePost) (item : LocalRecord) :
    (normalStep cfg fz posts item).dMatched + (normalStep cfg fz posts item).dUnmatched = 1 ∧
    (normalStep cfg fz posts item).dUnmatched =
      ((normalStep cfg fz posts item).review).toList.length := by
  unfold normalStep
  dsimp only
  split
  · exact ⟨rfl, rfl⟩
  · split
    · exact ⟨rfl, rfl⟩
    · split
      · exact ⟨rfl, rfl⟩
      · split
        · exact ⟨rfl, rfl⟩
        · exact ⟨rfl, rfl⟩

theorem mergeStep_counter (cfg : MergeConfig) (fz : String → String → ℚ)
    (posts : List CandidatePost) (ovr : String × String → Option OverrideEntry)
    (item : LocalRecord) (hp : ∀ p ∈ posts, p.images ≠ []) :
    (mergeStep cfg fz posts ovr item).dMatched +
      (mergeStep cfg fz posts ovr item).dUnmatched = 1 ∧
    (mergeStep cfg fz posts ovr item).dUnmatched =
      ((mergeStep cfg fz posts ovr item).review).toList.length := by
  unfold mergeStep
  dsimp only
  cases ovr (normalize item.folder, normalize item.title) with
  | none => exact normalStep_counter cfg fz posts item
  | some ov =>
    dsimp only
    split
    · exact overrideStep_counter posts ov item hp
    · exact normalStep_counter cfg fz posts item

theorem sum_counters_eq_length (l : List LocalRecord) (f g : LocalRecord → ℕ)
    (h : ∀ it ∈ l, f it + g it = 1) :
    (l.map f).sum + (l.map g).sum = l.length := by
  induction l with
  | nil => rfl
  | cons a l ih =>
    have ha := h a (List.mem_cons_self a l)
    have ih' := ih (fun it hit => h it (List.mem_cons_of_mem _ hit))
    simp only [List.map_cons, List.sum_cons, List.length_cons]
    omega

theorem sum_eq_filterMap_length {β : Type} (l : List LocalRecord)
    (g : LocalRecord → ℕ) (r : LocalRecord → Option β)
    (h : ∀ it ∈ l, g it = ((r it).toList).length) :
    (l.map g).sum = (l.filterMap r).length := by
  induction l with
  | nil => rfl
  | cons a l ih =>
    have ha := h a (List.mem_cons_self a l)
    have ih' := ih (fun it hit => h it (List.mem_cons_of_mem _ hit))
    simp only [List.map_cons, List.sum_cons, List.filterMap_cons]
    cases hr : r a with
    | none => simp [hr] at ha; simp [ha, ih']
    | some b =>
      simp [hr] at ha
      simp [ha, ih']
      omega

/-- C3: over aggregator-built posts, every LocalRecord increments exactly one
of the counters `matched` / `unmatched`; hence after the run
`matched + unmatched` equals the number of input records and `unmatched`
equals the number of review rows emitted. -/
theorem counters_consistent (cfg : MergeConfig) (fz : String → String → ℚ)
    (meta : List MetaRow) (ovr : String × String → Option OverrideEntry)
    (index : List LocalRecord) :
    (∀ item, (mergeStep cfg fz (buildPosts meta) ovr item).dMatched +
        (mergeStep cfg fz (buildPosts meta) ovr item).dUnmatched = 1) ∧
    (runMerge cfg fz (buildPosts meta) ovr index).matched +
      (runMerge cfg fz (buildPosts meta) ovr index).unmatched = index.length ∧
    (runMerge cfg fz (buildPosts meta) ovr index).unmatched =
      (runMerge cfg fz (buildPosts meta) ovr index).review_rows.length := by
  have hp := buildPosts_images_ne_nil meta
  have hstep := fun item => mergeStep_counter cfg fz (buildPosts meta) ovr item hp
  refine ⟨fun item => (hstep item).1, ?_, ?_⟩
  · rw [runMerge_char]
    exact sum_counters_eq_length index _ _ (fun it _ => (hstep it).1)
  · rw [runMerge_char]
    exact sum_eq_filterMap_length index _ _ (fun it _ => (hstep it).2)

/-- C10: every aggregator-built CandidatePost has at least one image,
`image_score` is total and non-negative, and consequently an override with a
non-empty forced post URL that is found among the candidates always resolves
an image: confidence 1.0, tag `override_forced`, counted as matched, no
review row — the 0.8 `override_image_missing` outcome is unreachable. -/
theorem override_found_resolves_image (meta : List MetaRow) :
    (∀ p ∈ buildPosts meta, p.images ≠ []) ∧
    (∀ (ir : LocalRecord) (im : ImageRec) (gp : Option Int),
        0 ≤ image_score ir im gp) ∧
    (∀ (cfg : MergeConfig) (fz : String → String → ℚ)
        (ovr : String × String → Option OverrideEntry) (item : LocalRecord)
        (e : OverrideEntry) (cand : CandidatePost),
        ovr (normalize item.folder, normalize item.title) = some e →
        e.post_url ≠ "" →
        (buildPosts meta).find? (fun p => p.post_url = e.post_url) = some cand →
        (mergeStep cfg fz (buildPosts meta) ovr item).out.match_confidence = 1 ∧
        (mergeStep cfg fz (buildPosts meta) ovr item).tag = .overrideForced ∧
        (mergeStep cfg fz (buildPosts meta) ovr item).dMatched = 1 ∧
        (mergeStep cfg fz (buildPosts meta) ovr item).review = none) := by
  refine ⟨buildPosts_images_ne_nil meta, image_score_nonneg, ?_⟩
  intro cfg fz ovr item e cand hk hne hf
  have hov : mergeStep cfg fz (buildPosts meta) ovr item =
      overrideStep (buildPosts meta) e item := by
    unfold mergeStep
    dsimp only
    rw [hk]
    exact if_pos hne
  rw [hov]
  unfold overrideStep
  dsimp only
  rw [hf]
  dsimp only
  have hmem : cand ∈ buildPosts meta := List.mem_of_find?_eq_some hf
  have hnecand := buildPosts_images_ne_nil meta cand hmem
  have hbest := bestBy_pos_spec
    (fun im => image_score item im
      (match e.image_pos with
       | some n => if n ≠ 0 then some n else number_from_orig_filename item.orig_filename
       | none => number_from_orig_filename item.orig_filename))
    cand.images hnecand (fun im _ => image_score_nonneg item im _)
  cases hb : (bestBy (fun im => image_score item im
      (match e.image_pos with
       | some n => if n ≠ 0 then some n else number_from_orig_filename item.orig_filename
       | none => number_from_orig_filename item.orig_filename)) cand.images).1 with
  | none => rw [hb] at hbest; exact absurd hbest.1 (by simp)
  | some bi => exact ⟨rfl, rfl, rfl, rfl⟩

/-- Concrete pipeline input for the C10 witness. -/
def metaW10 : List MetaRow :=
  [{ image_url := some "https://live.staticflickr.com/x/1.jpg",
     post_url := "http://b.example.com/2011/03/p.html",
     post_title := "T", position_in_post := some 1 }]

/-- The forced entry pointing at the one aggregated post of `metaW10`. -/
def eW10 : OverrideEntry :=
  { post_url := "http://b.example.com/2011/03/p.html", image_pos := none }

/-- The record carrying the override. -/
def itemW10 : LocalRecord := { folder := "f10", title := "t10" }

/-- Override table for the C10 witness. -/
def ovrW10 : String × String → Option OverrideEntry :=
  fun k => if k = ("f10", "t10") then some eW10 else none

/-- The aggregated candidate of `metaW10`. -/
def candW10 : CandidatePost :=
  (buildPosts metaW10).headD
    { post_url := "", post_title := "", post_slug := "", post_date := "",
      post_y := none, post_m := none, post_decade := none, labels := [],
      source := "", description := "", images := [], post_part := none }

theorem override_found_resolves_image_witness :
    (ovrW10 (normalize itemW10.folder, normalize itemW10.title) = some eW10 ∧
     eW10.post_url ≠ "" ∧
     (buildPosts metaW10).find? (fun p => p.post_url = eW10.post_url) = some candW10) ∧
    ((mergeStep {} fzZero (buildPosts metaW10) ovrW10 itemW10).out.match_confidence = 1 ∧
     (mergeStep {} fzZero (buildPosts metaW10) ovrW10 itemW10).tag = .overrideForced ∧
     (mergeStep {} fzZero (buildPosts metaW10) ovrW10 itemW10).dMatched = 1 ∧
     (mergeStep {} fzZero (buildPosts metaW10) ovrW10 itemW10).review = none) :=
  ⟨⟨by decide, by decide, by decide⟩,
   (override_found_resolves_image metaW10).2.2 {} fzZero ovrW10 itemW10 eW10 candW10
     (by decide) (by decide) (by decide)⟩

/-! Confidence bounds (C4). -/

theorem round_mono' {a b : ℚ} (h : a ≤ b) : round a ≤ round b := by
  rw [round_eq, round_eq]
  exact Int.floor_le_floor (by linarith)

theorem round4_nonneg {q : ℚ} (h : 0 ≤ q) : 0 ≤ round4 q := by
  unfold round4
  have h1 : round ((0 : ℚ)) ≤ round (q * 10000) := round_mono' (by nlinarith)
  rw [round_zero] at h1
  have h2 : ((0 : ℤ) : ℚ) ≤ ((round (q * 10000) : ℤ) : ℚ) := by exact_mod_cast h1
  have h3 : (0 : ℚ) ≤ ((round (q * 10000) : ℤ) : ℚ) := by simpa using h2
  positivity

theorem round4_le_one {q : ℚ} (h : q ≤ 1) : round4 q ≤ 1 := by
  unfold round4
  have h1 : round (q * 10000) ≤ round (((10000 : ℤ) : ℚ)) := round_mono' (by push_cast; nlinarith)
  rw [round_intCast] at h1
  rw [div_le_one (by norm_num : (0:ℚ) < 10000)]
  exact_mod_cast h1

theorem round4_neg_one : round4 (-1) = -1 := by
  unfold round4
  have h : ((-1 : ℚ)) * 10000 = (((-10000 : ℤ) : ℚ)) := by norm_num
  rw [h, round_intCast]
  norm_num

theorem bestBy_fst_some_ne_nil {α : Type} (f : α → ℚ) (xs : List α) (y : α)
    (h : (bestBy f xs).1 = some y) : xs ≠ [] := by
  intro hnil
  subst hnil
  rw [bestBy_nil] at h
  cases h

theorem overrideStep_conf (posts : List CandidatePost) (ov : OverrideEntry)
    (item : LocalRecord) :
    (overrideStep posts ov item).tag ≠ .postLowConfidence ∧
    (overrideStep posts ov item).tag ≠ .imageLowConfidence ∧
    0 ≤ (overrideStep posts ov item).out.match_confidence ∧
    (overrideStep posts ov item).out.match_confidence ≤ 1 := by
  unfold overrideStep
  dsimp only
  split
  · exact ⟨by simp, by simp, by norm_num, by norm_num⟩
  · split
    · exact ⟨by simp, by simp, by norm_num, by norm_num⟩
    · exact ⟨by simp, by simp, by norm_num, by norm_num⟩

theorem normalStep_conf_bounds (cfg : MergeConfig) (fz : String → String → ℚ)
    (posts : List CandidatePost) (item : LocalRecord)
    (hfz : ∀ a b, 0 ≤ fz a b) :
    ((normalStep cfg fz posts item).tag ≠ .postLowConfidence ∧
     (normalStep cfg fz posts item).tag ≠ .imageLowConfidence →
       0 ≤ (normalStep cfg fz posts item).out.match_confidence ∧
       (normalStep cfg fz posts item).out.match_confidence ≤ 1) ∧
    ((normalStep cfg fz posts item).tag = .postLowConfidence ∨
     (normalStep cfg fz posts item).tag = .imageLowConfidence →
       (normalStep cfg fz posts item).out.match_confidence =
         round4 (bestBy (post_score fz item) posts).2 ∧
       (posts ≠ [] → 0 ≤ (normalStep cfg fz posts item).out.match_confidence) ∧
       (posts = [] → (normalStep cfg fz posts item).out.match_confidence =
         round4 (-1))) := by
  have hps : ∀ p ∈ posts, 0 ≤ post_score fz item p :=
    fun p _ => post_score_nonneg fz hfz item p
  unfold normalStep
  dsimp only
  cases hb : (bestBy (post_score fz item) posts).1 with
  | none =>
    dsimp only
    refine ⟨fun h => absurd rfl h.1, fun _ => ⟨rfl, ?_, ?_⟩⟩
    · intro hne
      exact absurd (bestBy_pos_spec _ posts hne hps).1 (by rw [hb]; simp)
    · intro hnil
      subst hnil
      rw [bestBy_nil]
  | some bp =>
    dsimp only
    have hne : posts ≠ [] := bestBy_fst_some_ne_nil _ posts bp hb
    have hnn : 0 ≤ (bestBy (post_score fz item) posts).2 :=
      (bestBy_pos_spec _ posts hne hps).2
    split
    · -- post threshold rejects
      refine ⟨fun h => absurd rfl h.1, fun _ => ⟨rfl, fun _ => round4_nonneg hnn,
        fun hnil => absurd hnil hne⟩⟩
    · -- image stage
      cases hib : (bestBy (fun im =>
          image_score item im (number_from_orig_filename item.orig_filename))
          bp.images).1 with
      | none =>
        dsimp only
        refine ⟨fun h => absurd rfl h.2, fun _ => ⟨rfl, fun _ => round4_nonneg hnn,
          fun hnil => absurd hnil hne⟩⟩
      | some bi =>
        dsimp only
        split
        · -- image threshold rejects
          refine ⟨fun h => absurd rfl h.2, fun _ => ⟨rfl, fun _ => round4_nonneg hnn,
            fun hnil => absurd hnil hne⟩⟩
        · -- full match
          have himne : bp.images ≠ [] := bestBy_fst_some_ne_nil _ bp.images bi hib
          have hinn : 0 ≤ (bestBy (fun im =>
              image_score item im (number_from_orig_filename item.orig_filename))
              bp.images).2 :=
            (bestBy_pos_spec _ bp.images himne
              (fun im _ => image_score_nonneg item im _)).2
          refine ⟨fun _ => ⟨round4_nonneg ?_, round4_le_one ?_⟩,
            fun h => by rcases h with h | h <;> simp at h⟩
          · refine le_min (by norm_num) (by nlinarith)
          · exact min_le_left _ _

/-- C4 (amended): every confidence is in `[0, 1]` EXCEPT that records
rejected at the post stage OR at the image stage carry the raw best post
score rounded to 4 decimals — that raw value is non-negative whenever at
least one candidate post exists, but equals `round4 (-1) = -1` when the
candidate list is empty (so the confidence CAN be negative there, and at the
image stage it can exceed 1). -/
theorem confidence_bounds_amended (cfg : MergeConfig)
    (fz : String → String → ℚ) (posts : List CandidatePost)
    (ovr : String × String → Option OverrideEntry) (item : LocalRecord)
    (hfz : ∀ a b, 0 ≤ fz a b) :
    ((mergeStep cfg fz posts ovr item).tag ≠ .postLowConfidence ∧
     (mergeStep cfg fz posts ovr item).tag ≠ .imageLowConfidence →
       0 ≤ (mergeStep cfg fz posts ovr item).out.match_confidence ∧
       (mergeStep cfg fz posts ovr item).out.match_confidence ≤ 1) ∧
    ((mergeStep cfg fz posts ovr item).tag = .postLowConfidence ∨
     (mergeStep cfg fz posts ovr item).tag = .imageLowConfidence →
       (mergeStep cfg fz posts ovr item).out.match_confidence =
         round4 (bestBy (post_score fz item) posts).2 ∧
       (posts ≠ [] → 0 ≤ (mergeStep cfg fz posts ovr item).out.match_confidence) ∧
       (posts = [] → (mergeStep cfg fz posts ovr item).out.match_confidence =
         round4 (-1))) := by
  unfold mergeStep
  dsimp only
  cases hov : ovr (normalize item.folder, normalize item.title) with
  | none => exact normalStep_conf_bounds cfg fz posts item hfz
  | some ov =>
    dsimp only
    split
    · obtain ⟨ht1, ht2, h0, h1⟩ := overrideStep_conf posts ov item
      exact ⟨fun _ => ⟨h0, h1⟩,
        fun h => h.elim (fun h => absurd h ht1) (fun h => absurd h ht2)⟩
    · exact normalStep_conf_bounds cfg fz posts item hfz

theorem confidence_bounds_amended_witness :
    (∀ a b, 0 ≤ fzZero a b) ∧
    (((mergeStep {} fzZero [] ovrEmpty itemC1).tag ≠ .postLowConfidence ∧
      (mergeStep {} fzZero [] ovrEmpty itemC1).tag ≠ .imageLowConfidence →
        0 ≤ (mergeStep {} fzZero [] ovrEmpty itemC1).out.match_confidence ∧
        (mergeStep {} fzZero [] ovrEmpty itemC1).out.match_confidence ≤ 1) ∧
     ((mergeStep {} fzZero [] ovrEmpty itemC1).tag = .postLowConfidence ∨
      (mergeStep {} fzZero [] ovrEmpty itemC1).tag = .imageLowConfidence →
        (mergeStep {} fzZero [] ovrEmpty itemC1).out.match_confidence =
          round4 (bestBy (post_score fzZero itemC1) []).2 ∧
        (([] : List CandidatePost) ≠ [] →
          0 ≤ (mergeStep {} fzZero [] ovrEmpty itemC1).out.match_confidence) ∧
        (([] : List CandidatePost) = [] →
          (mergeStep {} fzZero [] ovrEmpty itemC1).out.match_confidence =
            round4 (-1)))) :=
  ⟨fun _ _ => le_refl 0,
   confidence_bounds_amended {} fzZero [] ovrEmpty itemC1 (fun _ _ => le_refl 0)⟩

/-- C4 counterexample: with no candidate posts at all, a post-stage-rejected
record carries confidence `-1.0` — strictly negative, contradicting the
claim that the confidence is never negative. -/
theorem confidence_negative_on_empty_posts :
    (mergeStep {} fzZero [] ovrEmpty itemC1).tag = .postLowConfidence ∧
    (mergeStep {} fzZero [] ovrEmpty itemC1).out.match_confidence = -1 ∧
    (mergeStep {} fzZero [] ovrEmpty itemC1).out.match_confidence < 0 := by
  have h : mergeStep {} fzZero [] ovrEmpty itemC1 =
      normalStep {} fzZero [] itemC1 := by
    unfold mergeStep
    rfl
  have h2 : normalStep {} fzZero [] itemC1 =
      { out := { item := itemC1, image_url := none, post_url := none,
                 post_title := none, post_labels := none, post_source := none,
                 post_description := none, match_confidence := round4 (-1) },
        review := some { id := itemC1.id, folder := itemC1.folder,
                         title := itemC1.title, date := itemC1.date,
                         reason := "post_low_confidence",
                         post_score_val := some (-1),
                         post_title_suggested := "", post_url_suggested := "" },
        dMatched := 0, dUnmatched := 1, tag := .postLowConfidence } := by
    unfold normalStep
    rfl
  rw [h, h2, round4_neg_one]
  exact ⟨rfl, rfl, by norm_num⟩

/-! Image ordering inside aggregated posts (C7). -/

theorem imgLe_total (a b : ImageRec) : imgLe a b = true ∨ imgLe b a = true := by
  unfold imgLe
  simp only [decide_eq_true_eq]
  rcases lt_trichotomy (if a.pos = 0 then (999999 : ℤ) else a.pos)
      (if b.pos = 0 then (999999 : ℤ) else b.pos) with h | h | h
  · exact Or.inl (Or.inl h)
  · rcases le_total a.url b.url with hu | hu
    · exact Or.inl (Or.inr ⟨h, hu⟩)
    · exact Or.inr (Or.inr ⟨h.symm, hu⟩)
  · exact Or.inr (Or.inl h)

theorem imgLe_trans (a b c : ImageRec) (hab : imgLe a b = true)
    (hbc : imgLe b c = true) : imgLe a c = true := by
  unfold imgLe at hab hbc ⊢
  simp only [decide_eq_true_eq] at hab hbc ⊢
  rcases hab with h1 | ⟨h1, hu1⟩ <;> rcases hbc with h2 | ⟨h2, hu2⟩
  · exact Or.inl (lt_trans h1 h2)
  · exact Or.inl (h2 ▸ h1)
  · exact Or.inl (h1 ▸ h2)
  · exact Or.inr ⟨h1.trans h2, le_trans hu1 hu2⟩

theorem mem_insertSorted {α : Type} (le : α → α → Bool) (x : α) (l : List α)
    (z : α) (hz : z ∈ insertSorted le x l) : z = x ∨ z ∈ l := by
  induction l with
  | nil =>
    rw [insertSorted] at hz
    exact Or.inl (List.mem_singleton.mp hz)
  | cons y ys ih =>
    rw [insertSorted] at hz
    split at hz
    · rcases List.mem_cons.mp hz with h | h
      · exact Or.inr (h ▸ List.mem_cons_self _ _)
      · rcases ih h with h' | h'
        · exact Or.inl h'
        · exact Or.inr (List.mem_cons_of_mem _ h')
    · rcases List.mem_cons.mp hz with h | h
      · exact Or.inl h
      · exact Or.inr h

theorem pairwise_insertSorted {α : Type} (le : α → α → Bool)
    (htr : ∀ a b c, le a b = true → le b c = true → le a c = true)
    (hto : ∀ a b, le a b = true ∨ le b a = true) (x : α) (l : List α)
    (hl : l.Pairwise (fun a b => le a b = true)) :
    (insertSorted le x l).Pairwise (fun a b => le a b = true) := by
  induction l with
  | nil => simp [insertSorted]
  | cons y ys ih =>
    rcases List.pairwise_cons.mp hl with ⟨hy, hys⟩
    by_cases hyx : le y x = true
    · rw [insertSorted, if_pos hyx]
      refine List.pairwise_cons.mpr ⟨?_, ih hys⟩
      intro z hz
      rcases mem_insertSorted le x ys z hz with h | h
      · exact h ▸ hyx
      · exact hy z h
    · rw [insertSorted, if_neg hyx]
      refine List.pairwise_cons.mpr ⟨?_, hl⟩
      intro z hz
      have hxy : le x y = true := (hto y x).resolve_left hyx
      rcases List.mem_cons.mp hz with h | h
      · exact h ▸ hxy
      · exact htr x y z hxy (hy z h)

theorem pairwise_stableSort {α : Type} (le : α → α → Bool)
    (htr : ∀ a b c, le a b = true → le b c = true → le a c = true)
    (hto : ∀ a b, le a b = true ∨ le b a = true) (l : List α) :
    (stableSort le l).Pairwise (fun a b => le a b = true) := by
  induction l with
  | nil => simp [stableSort]
  | cons x xs ih => exact pairwise_insertSorted le htr hto x _ ih

/-- C7 (amended): every aggregated image list is sorted — Pairwise — for the
comparison the code actually uses, the key `(pos if pos else 999999, url)`:
position ascending with null/zero positions mapped to the sentinel `999999`
(hence placed after positive positions BELOW the sentinel only), and the
image URL as the final tie-break between equal keys. -/
theorem buildPosts_images_sorted (meta : List MetaRow) (p : CandidatePost)
    (hp : p ∈ buildPosts meta) :
    p.images.Pairwise (fun a b => imgLe a b = true) := by
  rcases List.mem_map.mp hp with ⟨kv, _, hb⟩
  subst hb
  exact pairwise_stableSort imgLe imgLe_trans imgLe_total kv.2.images

/-- The image ordering exactly as the claim words it: position ascending,
null/zero positions after ALL positive positions, URL tie-break between
equal positions. -/
def claimImgLe (a b : ImageRec) : Bool :=
  decide ((if 0 < a.pos then (0 : ℤ) else 1) < (if 0 < b.pos then (0 : ℤ) else 1) ∨
    ((if 0 < a.pos then (0 : ℤ) else 1) = (if 0 < b.pos then (0 : ℤ) else 1) ∧
     (a.pos < b.pos ∨ (a.pos = b.pos ∧ a.url ≤ b.url))))

/-- Two images of one post: position 1000000 and position 0. -/
def metaC7 : List MetaRow :=
  [{ image_url := some "https://live.staticflickr.com/c/a.jpg",
     post_url := "http://b.example.com/p", position_in_post := some 1000000 },
   { image_url := some "https://live.staticflickr.com/c/b.jpg",
     post_url := "http://b.example.com/p", position_in_post := some 0 }]

/-- C7 counterexample: the zero-position image is mapped to the sentinel key
999999 and therefore sorted BEFORE the genuine position 1000000, so the
aggregated image list is not ordered the way the claim states (null/zero
after all positive positions). -/
theorem image_sort_claim_false :
    ¬ ∀ p ∈ buildPosts metaC7,
        p.images.Pairwise (fun a b => claimImgLe a b = true) := by decide

/-- Small pipeline instance for the C7 witness. -/
def metaW7 : List MetaRow :=
  [{ image_url := some "https://live.staticflickr.com/w/a.jpg",
     post_url := "http://b.example.com/w", position_in_post := some 2 },
   { image_url := some "https://live.staticflickr.com/w/b.jpg",
     post_url := "http://b.example.com/w", position_in_post := some 1 }]

/-- The single aggregated post of `metaW7`. -/
def pW7 : CandidatePost :=
  (buildPosts metaW7).headD
    { post_url := "", post_title := "", post_slug := "", post_date := "",
      post_y := none, post_m := none, post_decade := none, labels := [],
      source := "", description := "", images := [], post_part := none }

theorem buildPosts_images_sorted_witness :
    pW7 ∈ buildPosts metaW7 ∧
    pW7.images.Pairwise (fun a b => imgLe a b = true) :=
  ⟨by decide, buildPosts_images_sorted metaW7 pW7 (by decide)⟩

/-! Grouping key of the aggregator (C6). -/

/-- The image list stored under key `k`, empty when the key is absent. -/
def imagesAt (m : List (String × RawPost)) (k : String) : List ImageRec :=
  match m.find? (fun kv => kv.1 = k) with
  | some kv => kv.2.images
  | none => []

theorem imagesAt_updAssoc_self (k : String) (row : MetaRow) (u : String)
    (m : List (String × RawPost)) :
    imagesAt (updAssoc k (updateRawPost row u) m) k =
      imagesAt m k ++ [rowImage row u] := by
  induction m with
  | nil =>
    simp [updAssoc, imagesAt, List.find?, updateRawPost, emptyRawPost]
  | cons p m ih =>
    rcases p with ⟨k', v⟩
    by_cases hpk : k' = k
    · subst hpk
      rw [updAssoc, if_pos rfl]
      unfold imagesAt
      rw [List.find?_cons_of_pos _ (by simp), List.find?_cons_of_pos _ (by simp)]
      simp [updateRawPost]
    · rw [updAssoc, if_neg hpk]
      unfold imagesAt
      rw [List.find?_cons_of_neg _ (by simp [hpk]),
          List.find?_cons_of_neg _ (by simp [hpk])]
      exact ih

theorem imagesAt_updAssoc_other (k k' : String) (f : RawPost → RawPost)
    (m : List (String × RawPost)) (hne : k' ≠ k) :
    imagesAt (updAssoc k f m) k' = imagesAt m k' := by
  have hkk : ¬ (k = k') := fun h => hne h.symm
  induction m with
  | nil =>
    unfold updAssoc imagesAt
    rw [List.find?_cons_of_neg _ (by simp [hkk])]
  | cons p m ih =>
    rcases p with ⟨k0, v⟩
    by_cases hpk : k0 = k
    · rw [updAssoc, if_pos hpk]
      unfold imagesAt
      rw [List.find?_cons_of_neg _ (by simp [hpk ▸ hkk]),
          List.find?_cons_of_neg _ (by simp [hpk ▸ hkk])]
    · rw [updAssoc, if_neg hpk]
      by_cases hk0 : k0 = k'
      · subst hk0
        unfold imagesAt
        rw [List.find?_cons_of_pos _ (by simp), List.find?_cons_of_pos _ (by simp)]
      · unfold imagesAt
        rw [List.find?_cons_of_neg _ (by simp [hk0]),
            List.find?_cons_of_neg _ (by simp [hk0])]
        exact ih

theorem imagesAt_insertMeta (m : List (String × RawPost)) (row : MetaRow)
    (k : String) :
    imagesAt (insertMeta m row) k =
      imagesAt m k ++
        (if rowKept row = true ∧ normalize row.post_url = k then
           [rowImage row (row.image_url.getD "")]
         else []) := by
  unfold insertMeta
  rcases hu : row.image_url with _ | u
  · have : rowKept row = false := by unfold rowKept; rw [hu]
    simp [this]
  · dsimp only
    have hkept : rowKept row = (u ≠ "" && host_ok u) := by unfold rowKept; rw [hu]
    by_cases hk : (u ≠ "" && host_ok u) = true
    · rw [if_pos hk]
      by_cases hkey : normalize row.post_url = k
      · subst hkey
        rw [imagesAt_updAssoc_self]
        rw [if_pos ⟨by rw [hkept]; exact hk, rfl⟩]
        simp [hu]
      · rw [imagesAt_updAssoc_other _ _ _ _ (fun h => hkey h.symm)]
        rw [if_neg (fun hc => hkey hc.2)]
        simp
    · rw [if_neg hk]
      rw [if_neg (fun hc => hk (hkept ▸ hc.1))]
      simp

theorem imagesAt_post_map (meta : List MetaRow) (k : String) :
    imagesAt (post_map meta) k =
      (meta.filter (fun r => rowKept r && decide (normalize r.post_url = k))).map
        (fun r => rowImage r (r.image_url.getD "")) := by
  suffices h : ∀ acc, imagesAt (meta.foldl insertMeta acc) k =
      imagesAt acc k ++
        (meta.filter (fun r => rowKept r && decide (normalize r.post_url = k))).map
          (fun r => rowImage r (r.image_url.getD "")) by
    have := h []
    rw [post_map, this]
    simp [imagesAt, List.find?]
  induction meta with
  | nil =>
    intro acc
    simp
  | cons row rest ih =>
    intro acc
    rw [List.foldl_cons, ih, imagesAt_insertMeta]
    rw [List.filter_cons]
    by_cases hc : rowKept row = true ∧ normalize row.post_url = k
    · rw [if_pos hc, if_pos (by simp [hc.1, hc.2])]
      simp
    · rw [if_neg hc, if_neg (by
        intro hb
        rw [Bool.and_eq_true] at hb
        exact hc ⟨hb.1, of_decide_eq_true hb.2⟩)]
      simp

theorem updAssoc_keys (k : String) (f : RawPost → RawPost)
    (m : List (String × RawPost)) :
    (updAssoc k f m).map Prod.fst =
      if k ∈ m.map Prod.fst then m.map Prod.fst else m.map Prod.fst ++ [k] := by
  induction m with
  | nil => simp [updAssoc]
  | cons p m ih =>
    rcases p with ⟨k0, v⟩
    by_cases hpk : k0 = k
    · subst hpk
      rw [updAssoc, if_pos rfl]
      simp
    · rw [updAssoc, if_neg hpk]
      simp only [List.map_cons, List.mem_cons]
      rw [ih]
      by_cases hmem : k ∈ m.map Prod.fst
      · rw [if_pos hmem, if_pos (Or.inr hmem)]
      · rw [if_neg hmem, if_neg (by
          intro h
          rcases h with h | h
          · exact hpk h.symm
          · exact hmem h)]
        simp

theorem post_map_keys_nodup (meta : List MetaRow) :
    ((post_map meta).map Prod.fst).Nodup := by
  suffices h : ∀ acc : List (String × RawPost), (acc.map Prod.fst).Nodup →
      ((meta.foldl insertMeta acc).map Prod.fst).Nodup by
    exact h [] (by simp)
  induction meta with
  | nil => intro acc hacc; exact hacc
  | cons row rest ih =>
    intro acc hacc
    rw [List.foldl_cons]
    refine ih _ ?_
    unfold insertMeta
    rcases row.image_url with _ | u
    · exact hacc
    · dsimp only
      split
      · rw [updAssoc_keys]
        split
        · exact hacc
        · rw [List.nodup_append]
          refine ⟨hacc, List.nodup_singleton _, ?_⟩
          intro a ha hb
          rw [List.mem_singleton] at hb
          subst hb
          exact (by assumption : ¬ _) ha
      · exact hacc

theorem find?_eq_of_mem_nodup (m : List (String × RawPost))
    (hnd : (m.map Prod.fst).Nodup) (kv : String × RawPost) (h : kv ∈ m) :
    m.find? (fun x => x.1 = kv.1) = some kv := by
  induction m with
  | nil => cases h
  | cons p m ih =>
    rcases List.mem_cons.mp h with h0 | h0
    · subst h0
      exact List.find?_cons_of_pos _ (by simp)
    · have hne : ¬ (p.1 = kv.1) := by
        intro he
        have : kv.1 ∈ m.map Prod.fst := List.mem_map.mpr ⟨kv, h0, rfl⟩
        rw [List.map_cons, List.nodup_cons] at hnd
        exact hnd.1 (he ▸ this)
      rw [List.find?_cons_of_neg _ (by simp [hne])]
      exact ih (by rw [List.map_cons, List.nodup_cons] at hnd; exact hnd.2) h0

/-- C6 (amended): the aggregator groups surviving RemoteImageRecords by the
WHITESPACE-NORMALIZED post URL string — `normalize` collapses runs of
whitespace only; query strings and fragments are NOT stripped.  Every
`post_map` entry holds exactly the images of the surviving rows whose
normalized post URL equals its key, in input order. -/
theorem post_map_groups_by_normalized_url (meta : List MetaRow)
    (kv : String × RawPost) (h : kv ∈ post_map meta) :
    kv.2.images =
      (meta.filter (fun r => rowKept r && decide (normalize r.post_url = kv.1))).map
        (fun r => rowImage r (r.image_url.getD "")) := by
  have hfind := find?_eq_of_mem_nodup _ (post_map_keys_nodup meta) kv h
  have hchar := imagesAt_post_map meta kv.1
  rw [imagesAt, hfind] at hchar
  exact hchar

/-- The scheme+host+path prefix of a URL, i.e. the URL with any query string
and fragment stripped — the grouping key the claim asserts. -/
def urlSchemeHostPath (u : String) : String :=
  String.mk (u.data.takeWhile (fun c => c ≠ '?' ∧ c ≠ '#'))

/-- Two surviving rows whose post URLs differ only in the query string. -/
def metaC6 : List MetaRow :=
  [{ image_url := some "https://live.staticflickr.com/q/a.jpg",
     post_url := "http://b.example.com/p.html" },
   { image_url := some "https://live.staticflickr.com/q/b.jpg",
     post_url := "http://b.example.com/p.html?m=1" }]

/-- C6 counterexample: the two rows of `metaC6` differ only in the query
string, both survive the filter, and yet NO aggregated candidate holds both
of their images — they land in different CandidatePosts, because the
grouping key is the whitespace-normalized URL, not scheme+host+path. -/
theorem query_stripped_grouping_false :
    urlSchemeHostPath (metaC6.get ⟨0, by decide⟩).post_url =
      urlSchemeHostPath (metaC6.get ⟨1, by decide⟩).post_url ∧
    (metaC6.get ⟨0, by decide⟩).post_url ≠ (metaC6.get ⟨1, by decide⟩).post_url ∧
    rowKept (metaC6.get ⟨0, by decide⟩) = true ∧
    rowKept (metaC6.get ⟨1, by decide⟩) = true ∧
    ¬ ∃ p ∈ buildPosts metaC6,
        (∃ im ∈ p.images, im.url = "https://live.staticflickr.com/q/a.jpg") ∧
        (∃ im ∈ p.images, im.url = "https://live.staticflickr.com/q/b.jpg") := by
  decide

/-- Small pipeline instance for the C6 witness: two rows of one post and one
row of another. -/
def metaW6 : List MetaRow :=
  [{ image_url := some "https://live.staticflickr.com/z/a.jpg",
     post_url := "http://b.example.com/one.html" },
   { image_url := some "https://live.staticflickr.com/z/b.jpg",
     post_url := "http://b.example.com/two.html" },
   { image_url := some "https://live.staticflickr.com/z/c.jpg",
     post_url := "http://b.example.com/  one.html" }]

/-- The first aggregated entry of `metaW6`. -/
def kvW6 : String × RawPost := (post_map metaW6).headD ("", emptyRawPost)

theorem post_map_groups_by_normalized_url_witness :
    kvW6 ∈ post_map metaW6 ∧
    kvW6.2.images =
      (metaW6.filter (fun r => rowKept r && decide (normalize r.post_url = kvW6.1))).map
        (fun r => rowImage r (r.image_url.getD "")) :=
  ⟨by decide, post_map_groups_by_normalized_url metaW6 kvW6 (by decide)⟩

/-! Synonym-folding idempotence (C8).  The development shows that one pass of
lower-casing, stripping, splitting, substituting and re-joining produces a
string of lower-case alphanumeric words separated by single spaces, on which
a second pass acts as the identity. -/

theorem pyWordsAux_ne_nil (l : List Char) :
    ∀ acc, ∀ w ∈ pyWordsAux l acc, w ≠ [] := by
  induction l with
  | nil =>
    intro acc w hw
    rw [pyWordsAux] at hw
    split at hw
    · cases hw
    · rw [List.mem_singleton] at hw
      subst hw
      assumption
  | cons c cs ih =>
    intro acc w hw
    rw [pyWordsAux] at hw
    split at hw
    · split at hw
      · exact ih [] w hw
      · rcases List.mem_cons.mp hw with h | h
        · subst h; assumption
        · exact ih [] w h
    · exact ih (acc ++ [c]) w hw

theorem pyWordsAux_no_space (l : List Char) :
    ∀ acc, (∀ c ∈ acc, pyIsSpace c = false) →
      ∀ w ∈ pyWordsAux l acc, ∀ c ∈ w, pyIsSpace c = false := by
  induction l with
  | nil =>
    intro acc hacc w hw
    rw [pyWordsAux] at hw
    split at hw
    · cases hw
    · rw [List.mem_singleton] at hw
      subst hw
      exact hacc
  | cons c cs ih =>
    intro acc hacc w hw
    rw [pyWordsAux] at hw
    split at hw
    · split at hw
      · exact ih [] (by intro d hd; cases hd) w hw
      · rcases List.mem_cons.mp hw with h | h
        · subst h; exact hacc
        · exact ih [] (by intro d hd; cases hd) w h
    · refine ih (acc ++ [c]) ?_ w hw
      intro d hd
      rcases List.mem_append.mp hd with h | h
      · exact hacc d h
      · rw [List.mem_singleton] at h
        subst h
        rename_i hns
        exact Bool.not_eq_true _ ▸ hns

theorem pyWordsAux_chars (P : Char → Prop) (l : List Char) :
    ∀ acc, (∀ c ∈ l, P c) → (∀ c ∈ acc, P c) →
      ∀ w ∈ pyWordsAux l acc, ∀ c ∈ w, P c := by
  induction l with
  | nil =>
    intro acc _ hacc w hw
    rw [pyWordsAux] at hw
    split at hw
    · cases hw
    · rw [List.mem_singleton] at hw
      subst hw
      exact hacc
  | cons c cs ih =>
    intro acc hl hacc w hw
    have hl' : ∀ d ∈ cs, P d := fun d hd => hl d (List.mem_cons_of_mem _ hd)
    rw [pyWordsAux] at hw
    split at hw
    · split at hw
      · exact ih [] hl' (by intro d hd; cases hd) w hw
      · rcases List.mem_cons.mp hw with h | h
        · subst h; exact hacc
        · exact ih [] hl' (by intro d hd; cases hd) w h
    · refine ih (acc ++ [c]) hl' ?_ w hw
      intro d hd
      rcases List.mem_append.mp hd with h | h
      · exact hacc d h
      · rw [List.mem_singleton] at h
        exact hl d (by rw [h]; exact List.mem_cons_self _ _)

theorem pyWordsAux_append_word (t : List Char)
    (ht : ∀ c ∈ t, pyIsSpace c = false) (rest acc : List Char) :
    pyWordsAux (t ++ rest) acc = pyWordsAux rest (acc ++ t) := by
  induction t generalizing acc with
  | nil => simp
  | cons c t' ih =>
    have hc : pyIsSpace c = false := ht c (List.mem_cons_self _ _)
    rw [List.cons_append, pyWordsAux, if_neg (by simp [hc])]
    rw [ih (fun d hd => ht d (List.mem_cons_of_mem _ hd)) (acc ++ [c])]
    congr 1
    rw [List.append_assoc]
    rfl

theorem pyWordsAux_space_cons (rest acc : List Char) (h : acc ≠ []) :
    pyWordsAux (' ' :: rest) acc = acc :: pyWordsAux rest [] := by
  rw [pyWordsAux, if_pos (by decide), if_neg h]

theorem pyWords_joinWords (ts : List (List Char))
    (h : ∀ w ∈ ts, w ≠ [] ∧ ∀ c ∈ w, pyIsSpace c = false) :
    pyWords (joinWords ts) = ts := by
  induction ts with
  | nil => rfl
  | cons t ts' ih =>
    cases ts' with
    | nil =>
      obtain ⟨hne, hns⟩ := h t (List.mem_singleton.mpr rfl)
      show pyWordsAux (joinWords [t]) [] = [t]
      rw [joinWords]
      have h1 := pyWordsAux_append_word t hns [] []
      rw [List.append_nil] at h1
      rw [h1, List.nil_append, pyWordsAux, if_neg hne]
    | cons t2 ts'' =>
      obtain ⟨hne, hns⟩ := h t (List.mem_cons_self _ _)
      show pyWordsAux (joinWords (t :: t2 :: ts'')) [] = t :: t2 :: ts''
      rw [joinWords]
      rw [pyWordsAux_append_word t hns (' ' :: joinWords (t2 :: ts'')) []]
      rw [List.nil_append, pyWordsAux_space_cons _ t hne]
      have := ih (fun w hw => h w (List.mem_cons_of_mem _ hw))
      rw [show pyWordsAux (joinWords (t2 :: ts'')) [] =
        pyWords (joinWords (t2 :: ts'')) from rfl, this]

theorem joinWords_chars (ts : List (List Char)) :
    ∀ c ∈ joinWords ts, c = ' ' ∨ ∃ w ∈ ts, c ∈ w := by
  induction ts with
  | nil => intro c hc; cases hc
  | cons t ts' ih =>
    cases ts' with
    | nil =>
      intro c hc
      rw [joinWords] at hc
      exact Or.inr ⟨t, List.mem_singleton.mpr rfl, hc⟩
    | cons t2 ts'' =>
      intro c hc
      rw [joinWords] at hc
      rcases List.mem_append.mp hc with h | h
      · exact Or.inr ⟨t, List.mem_cons_self _ _, h⟩
      · rcases List.mem_cons.mp h with h | h
        · exact Or.inl h
        · rcases ih c h with h | ⟨w, hw, hcw⟩
          · exact Or.inl h
          · exact Or.inr ⟨w, List.mem_cons_of_mem _ hw, hcw⟩

theorem isAlnumLower_ranges (c : Char) (h : isAlnumLower c = true) :
    (97 ≤ c.toNat ∧ c.toNat ≤ 122) ∨ (48 ≤ c.toNat ∧ c.toNat ≤ 57) := by
  unfold isAlnumLower isAsciiLower isAsciiDigit at h
  simp only [Bool.or_eq_true, Bool.and_eq_true, decide_eq_true_eq] at h
  exact h

theorem pyIsSpace_toNat (c : Char) (h : pyIsSpace c = true) :
    c.toNat = 32 ∨ c.toNat = 9 ∨ c.toNat = 10 ∨ c.toNat = 13 ∨
    c.toNat = 11 ∨ c.toNat = 12 := by
  unfold pyIsSpace at h
  simp only [Bool.or_eq_true, decide_eq_true_eq] at h
  rcases h with ((((h | h) | h) | h) | h) | h <;> subst h <;> decide

theorem alnum_not_space (c : Char) (h : isAlnumLower c = true) :
    pyIsSpace c = false := by
  cases hs : pyIsSpace c with
  | false => rfl
  | true =>
    exfalso
    rcases isAlnumLower_ranges c h with ⟨h1, h2⟩ | ⟨h1, h2⟩ <;>
      rcases pyIsSpace_toNat c hs with ht | ht | ht | ht | ht | ht <;> omega

theorem lowerChar_id_of_alnum (c : Char) (h : isAlnumLower c = true) :
    lowerChar c = c := by
  rcases isAlnumLower_ranges c h with ⟨h1, h2⟩ | ⟨h1, h2⟩ <;>
  · unfold lowerChar
    rw [if_neg (by omega)]

theorem stripToSpace_id_of_alnum (c : Char) (h : isAlnumLower c = true) :
    stripToSpace c = c := by
  unfold stripToSpace
  rw [if_pos (by simp [h])]

theorem stripToSpace_class (c : Char) :
    isAlnumLower (stripToSpace c) = true ∨ pyIsSpace (stripToSpace c) = true := by
  by_cases hk : (isAlnumLower c || pyIsSpace c) = true
  · unfold stripToSpace
    rw [if_pos hk]
    simp only [Bool.or_eq_true] at hk
    exact hk
  · unfold stripToSpace
    rw [if_neg hk]
    exact Or.inr (by decide)

theorem lookup_some_mem {k v : String} :
    ∀ {l : List (String × String)}, l.lookup k = some v → (k, v) ∈ l := by
  intro l
  induction l with
  | nil => intro h; cases h
  | cons p es ih =>
    rcases p with ⟨k0, v0⟩
    intro h
    rw [List.lookup] at h
    split at h
    · injection h with h2
      subst h2
      have hk : k = k0 := by rename_i hbeq; exact eq_of_beq hbeq
      subst hk
      exact List.mem_cons_self _ _
    · exact List.mem_cons_of_mem _ (ih h)

theorem SYNONYMS_values (s v : String) (h : SYNONYMS s = some v) :
    v.data ≠ [] ∧ (∀ c ∈ v.data, isAlnumLower c = true) ∧ SYNONYMS v = none := by
  have hmem : v ∈ SYNONYMS_TABLE.map Prod.snd := by
    unfold SYNONYMS at h
    exact List.mem_map.mpr ⟨(s, v), lookup_some_mem h, rfl⟩
  have hall : ∀ u ∈ SYNONYMS_TABLE.map Prod.snd,
      u.data ≠ [] ∧ (∀ c ∈ u.data, isAlnumLower c = true) ∧ SYNONYMS u = none := by
    decide
  exact hall v hmem

theorem synFold_fix (t : String) : synFold (synFold t) = synFold t := by
  cases h : SYNONYMS t with
  | none =>
    unfold synFold
    rw [h, Option.getD_none, h, Option.getD_none]
  | some v =>
    unfold synFold
    rw [h, Option.getD_some, (SYNONYMS_values t v h).2.2, Option.getD_none]

theorem synFold_props (w : List Char) (hne : w ≠ [])
    (hal : ∀ c ∈ w, isAlnumLower c = true) :
    (synFold (String.mk w)).data ≠ [] ∧
    ∀ c ∈ (synFold (String.mk w)).data, isAlnumLower c = true := by
  cases h : SYNONYMS (String.mk w) with
  | none =>
    unfold synFold
    rw [h, Option.getD_none]
    exact ⟨hne, hal⟩
  | some v =>
    unfold synFold
    rw [h, Option.getD_some]
    obtain ⟨h1, h2, _⟩ := SYNONYMS_values _ v h
    exact ⟨h1, h2⟩

theorem string_mk_data (s : String) : String.mk s.data = s := rfl

/-- C8: synonym folding is idempotent — one pass of tokenizing, substituting
through the fixed synonym table and re-joining with single spaces reaches a
fixed point, for EVERY input string. -/
theorem apply_synonyms_idem (x : String) :
    apply_synonyms_tokenwise (apply_synonyms_tokenwise x) =
      apply_synonyms_tokenwise x := by
  unfold apply_synonyms_tokenwise
  set l0 := (x.data.map lowerChar).map stripToSpace with hl0
  set ts := pyWords l0 with hts
  set ms := ts.map (fun t => (synFold (String.mk t)).data) with hms
  -- every character of l0 is lower-alphanumeric or whitespace
  have hl0class : ∀ c ∈ l0, isAlnumLower c = true ∨ pyIsSpace c = true := by
    intro c hc
    rw [hl0] at hc
    rcases List.mem_map.mp hc with ⟨d, _, hd⟩
    exact hd ▸ stripToSpace_class d
  -- tokens of the first pass: non-empty, entirely lower-alphanumeric
  have hts_props : ∀ w ∈ ts, w ≠ [] ∧ ∀ c ∈ w, isAlnumLower c = true := by
    intro w hw
    refine ⟨pyWordsAux_ne_nil l0 [] w hw, ?_⟩
    intro c hc
    have hclass := pyWordsAux_chars
      (fun c => isAlnumLower c = true ∨ pyIsSpace c = true) l0 [] hl0class
      (by intro d hd; cases hd) w hw c hc
    have hnospace := pyWordsAux_no_space l0 [] (by intro d hd; cases hd) w hw c hc
    rcases hclass with h | h
    · exact h
    · rw [hnospace] at h
      cases h
  -- folded tokens keep those properties
  have hms_props : ∀ w ∈ ms, w ≠ [] ∧ ∀ c ∈ w, isAlnumLower c = true := by
    intro w hw
    rw [hms] at hw
    rcases List.mem_map.mp hw with ⟨t, ht, hfold⟩
    obtain ⟨h1, h2⟩ := hts_props t ht
    exact hfold ▸ synFold_props t h1 h2
  -- lower-casing and stripping fix the joined fold result
  have hid : (((String.mk (joinWords ms)).data.map lowerChar).map stripToSpace) =
      joinWords ms := by
    rw [show (String.mk (joinWords ms)).data = joinWords ms from rfl]
    rw [List.map_map]
    have hpt : ∀ c ∈ joinWords ms, (stripToSpace ∘ lowerChar) c = id c := by
      intro c hc
      rcases joinWords_chars ms c hc with h | ⟨w, hw, hcw⟩
      · subst h
        decide
      · have hal := (hms_props w hw).2 c hcw
        show stripToSpace (lowerChar c) = c
        rw [lowerChar_id_of_alnum c hal, stripToSpace_id_of_alnum c hal]
    rw [List.map_congr_left hpt, List.map_id]
  -- splitting recovers exactly the folded tokens
  have hsplit : pyWords (joinWords ms) = ms := by
    refine pyWords_joinWords ms ?_
    intro w hw
    obtain ⟨h1, h2⟩ := hms_props w hw
    exact ⟨h1, fun c hc => alnum_not_space c (h2 c hc)⟩
  -- folding again changes nothing
  have hmap : ms.map (fun t => (synFold (String.mk t)).data) = ms := by
    conv_rhs => rw [hms]
    rw [hms, List.map_map]
    refine List.map_congr_left ?_
    intro t _
    show (synFold (String.mk ((synFold (String.mk t)).data))).data =
      (synFold (String.mk t)).data
    rw [string_mk_data, synFold_fix]
  rw [hid, hsplit, hmap]

end OldIndiaPhotos
